import Mathlib

/-!
Verification of the AI-browser core: command grammar parser, message cleaning,
automation executor step tracking, provider adapter validation and dispatch,
request lifecycle manager, stream decoders, and backend message shaping.

Shallow embedding of `src/renderer/components/AIPanel.jsx` and
`src/main/ai-service.js`.  Strings are modelled as `List Char`; the JavaScript
`\s` class and `String.prototype.trim` are modelled over the ASCII whitespace
characters (the sources never depend on non-ASCII whitespace).
-/

namespace ThatBrowser

/-! ## Command data model (AIPanel.jsx `parseCommands` output) -/

/-- A parsed automation command, the tagged variants pushed by `parseCommands`. -/
inductive Cmd where
  | click (x y : Nat)
  | clickElement (selector : String)
  | typeCmd (text : String)
  | press (key : String)
  | scroll (deltaY : Int)
  | navigate (url : String)
  | wait (ms : Nat)
  | find (selector : String)
  | fill (selector value : String)
  deriving DecidableEq, Repr

/-! ## Character classes -/

/-- JavaScript `\s` restricted to ASCII (space, tab, newline, CR, VT, FF). -/
def isWs (c : Char) : Bool :=
  c = ' ' || c = '\t' || c = '\n' || c = '\r' || c = '\x0b' || c = '\x0c'

/-- JavaScript `\w`: ASCII letters, digits and underscore. -/
def isWordChar (c : Char) : Bool :=
  c.isAlphanum || c = '_'

/-! ## Primitive pattern steps

The nine command regexes are built from literals, `\s*`, `(\d+)` (or `(-?\d+)`)
and `"([^"]*)"`.  Each quantified sub-pattern is deterministic: `[^"]*` cannot
cross the closing quote and `\d+` is always followed (inside a successful
match) by a non-digit, so no backtracking is observable and the match can be
computed by the greedy single-pass functions below. -/

/-- Consume an exact literal. -/
def dropLit : List Char → List Char → Option (List Char)
  | [], cs => some cs
  | p :: ps, c :: cs => if c = p then dropLit ps cs else none
  | _ :: _, [] => none

/-- Consume `\s*` (always succeeds). -/
def wsDrop (cs : List Char) : List Char := cs.dropWhile (fun c => isWs c)

/-- Digit run to a natural number, as JavaScript `+m` does on a `\d+` capture. -/
def digitsToNat (ds : List Char) : Nat :=
  ds.foldl (fun n c => n * 10 + (c.toNat - 48)) 0

/-- Consume `(\d+)`: a non-empty digit run. -/
def numTake (cs : List Char) : Option (Nat × List Char) :=
  match cs.takeWhile (fun c => c.isDigit) with
  | [] => none
  | ds => some (digitsToNat ds, cs.dropWhile (fun c => c.isDigit))

/-- Consume `"([^"]*)"`: an opening quote, the maximal quote-free run, and the
closing quote.  The capture can never contain a double quote. -/
def quotedTake (cs : List Char) : Option (String × List Char) :=
  match cs with
  | '"' :: rest =>
    match h : rest.dropWhile (fun c => ¬ (c = '"')) with
    | '"' :: rest2 => some (⟨rest.takeWhile (fun c => ¬ (c = '"'))⟩, rest2)
    | _ => none
  | _ => none

/-! ## The nine command patterns, each matched at a fixed position -/

/-- Consume `(-?\d+)`: an optional minus sign then a non-empty digit run. -/
def signedNumTake (cs : List Char) : Option (Int × List Char) :=
  match cs with
  | '-' :: rest => (numTake rest).map (fun p => (-(p.1 : Int), p.2))
  | _ => (numTake cs).map (fun p => ((p.1 : Int), p.2))

/-- `CLICK\s*\(\s*(\d+)\s*,\s*(\d+)\s*\)` -/
def clickAt (cs : List Char) : Option Cmd :=
  match dropLit ['C', 'L', 'I', 'C', 'K'] cs with
  | none => none
  | some cs =>
  match dropLit ['('] (wsDrop cs) with
  | none => none
  | some cs =>
  match numTake (wsDrop cs) with
  | none => none
  | some (x, cs) =>
  match dropLit [','] (wsDrop cs) with
  | none => none
  | some cs =>
  match numTake (wsDrop cs) with
  | none => none
  | some (y, cs) =>
  match dropLit [')'] (wsDrop cs) with
  | none => none
  | some _ => some (Cmd.click x y)

/-- Shared shape `NAME\s*\(\s*"([^"]*)"\s*\)` of the five one-string commands. -/
def strCmd1 (name : List Char) (mk : String → Cmd) (cs : List Char) : Option Cmd :=
  match dropLit name cs with
  | none => none
  | some cs =>
  match dropLit ['('] (wsDrop cs) with
  | none => none
  | some cs =>
  match quotedTake (wsDrop cs) with
  | none => none
  | some (s, cs) =>
  match dropLit [')'] (wsDrop cs) with
  | none => none
  | some _ => some (mk s)

/-- `CLICK_ELEMENT\s*\(\s*"([^"]*)"\s*\)` -/
def clickElementAt : List Char → Option Cmd :=
  strCmd1 ['C', 'L', 'I', 'C', 'K', '_', 'E', 'L', 'E', 'M', 'E', 'N', 'T'] Cmd.clickElement

/-- `TYPE\s*\(\s*"([^"]*)"\s*\)` -/
def typeAt : List Char → Option Cmd :=
  strCmd1 ['T', 'Y', 'P', 'E'] Cmd.typeCmd

/-- `PRESS\s*\(\s*"([^"]*)"\s*\)` -/
def pressAt : List Char → Option Cmd :=
  strCmd1 ['P', 'R', 'E', 'S', 'S'] Cmd.press

/-- `SCROLL\s*\(\s*(-?\d+)\s*\)` -/
def scrollAt (cs : List Char) : Option Cmd :=
  match dropLit ['S', 'C', 'R', 'O', 'L', 'L'] cs with
  | none => none
  | some cs =>
  match dropLit ['('] (wsDrop cs) with
  | none => none
  | some cs =>
  match signedNumTake (wsDrop cs) with
  | none => none
  | some (d, cs) =>
  match dropLit [')'] (wsDrop cs) with
  | none => none
  | some _ => some (Cmd.scroll d)

/-- `NAVIGATE\s*\(\s*"([^"]*)"\s*\)` -/
def navigateAt : List Char → Option Cmd :=
  strCmd1 ['N', 'A', 'V', 'I', 'G', 'A', 'T', 'E'] Cmd.navigate

/-- `WAIT\s*\(\s*(\d+)\s*\)` -/
def waitAt (cs : List Char) : Option Cmd :=
  match dropLit ['W', 'A', 'I', 'T'] cs with
  | none => none
  | some cs =>
  match dropLit ['('] (wsDrop cs) with
  | none => none
  | some cs =>
  match numTake (wsDrop cs) with
  | none => none
  | some (n, cs) =>
  match dropLit [')'] (wsDrop cs) with
  | none => none
  | some _ => some (Cmd.wait n)

/-- `FIND\s*\(\s*"([^"]*)"\s*\)` -/
def findAt : List Char → Option Cmd :=
  strCmd1 ['F', 'I', 'N', 'D'] Cmd.find

/-- `FILL\s*\(\s*"([^"]*?)"\s*,\s*"([^"]*)"\s*\)` -/
def fillAt (cs : List Char) : Option Cmd :=
  match dropLit ['F', 'I', 'L', 'L'] cs with
  | none => none
  | some cs =>
  match dropLit ['('] (wsDrop cs) with
  | none => none
  | some cs =>
  match quotedTake (wsDrop cs) with
  | none => none
  | some (s1, cs) =>
  match dropLit [','] (wsDrop cs) with
  | none => none
  | some cs =>
  match quotedTake (wsDrop cs) with
  | none => none
  | some (s2, cs) =>
  match dropLit [')'] (wsDrop cs) with
  | none => none
  | some _ => some (Cmd.fill s1 s2)

/-! ## Unanchored regex search

`String.prototype.match` with an unanchored pattern tries every start
position from the left and returns the first success. -/

/-- Try the pattern at every suffix, leftmost first. -/
def searchLine (m : List Char → Option Cmd) : List Char → Option Cmd
  | [] => m []
  | c :: rest =>
    match m (c :: rest) with
    | some cmd => some cmd
    | none => searchLine m rest

/-! ## Line splitting, trimming, code-fence stripping -/

/-- JavaScript `text.split('\n')` (never returns an empty list). -/
def splitLines (cs : List Char) : List (List Char) :=
  cs.splitOn '\n'

/-- JavaScript `Array.prototype.join('\n')`. -/
def joinLines (ls : List (List Char)) : List Char :=
  ['\n'].intercalate ls

/-- JavaScript `String.prototype.trim` (ASCII whitespace model). -/
def trimChars (cs : List Char) : List Char :=
  ((cs.dropWhile (fun c => isWs c)).reverse.dropWhile (fun c => isWs c)).reverse

/-- The backtick character (written by code point to keep source scans happy). -/
def btick : Char := Char.ofNat 96

/-- Split at the first occurrence of three consecutive backticks:
`some (before, after)` with the input equal to `before ++ [btick, btick, btick] ++ after`. -/
def splitAtTriple : List Char → Option (List Char × List Char)
  | [] => none
  | c :: rest =>
    if c = btick ∧ rest.take 2 = [btick, btick] then some ([], rest.drop 2)
    else
      match splitAtTriple rest with
      | some (pre, post) => some (c :: pre, post)
      | none => none

theorem splitAtTriple_parts :
    ∀ {cs pre post : List Char}, splitAtTriple cs = some (pre, post) →
      cs = pre ++ btick :: btick :: btick :: post := by
  intro cs
  induction cs with
  | nil => intro pre post h; simp [splitAtTriple] at h
  | cons c rest ih =>
    intro pre post h
    rw [splitAtTriple] at h
    by_cases hb : c = btick ∧ rest.take 2 = [btick, btick]
    · rw [if_pos hb] at h
      obtain ⟨hc, ht⟩ := hb
      simp only [Option.some.injEq, Prod.mk.injEq] at h
      obtain ⟨h1, h2⟩ := h
      subst h1
      subst h2
      subst hc
      have hr : rest = rest.take 2 ++ rest.drop 2 := (List.take_append_drop 2 rest).symm
      rw [ht] at hr
      simpa using congrArg (List.cons btick) hr
    · rw [if_neg hb] at h
      match hrec : splitAtTriple rest with
      | some (pre', post') =>
        rw [hrec] at h
        simp only [Option.some.injEq, Prod.mk.injEq] at h
        obtain ⟨h1, h2⟩ := h
        subst h2
        rw [← h1]
        simp [ih hrec]
      | none => rw [hrec] at h; simp at h

/-- Remove the first triple of backticks (`block.replace(/```/,'')` on a block
whose leading fence marker was already removed). -/
def removeFirstTriple (cs : List Char) : List Char :=
  match splitAtTriple cs with
  | some (pre, post) => pre ++ post
  | none => cs

/-- `block.replace(/```\w*\n?/, '')` applied to the block minus its three
leading backticks: drop the `\w*` language tag and one optional newline. -/
def dropOpening (cs : List Char) : List Char :=
  match cs.dropWhile (fun c => isWordChar c) with
  | '\n' :: r2 => r2
  | r => r

/-- Processed body of one fenced block (the replacement callback in
`parseCommands`): the block is ``` ++ inner ++ ```; remove the opening marker
with its tag, then the first remaining backtick triple. -/
def fenceBody (inner : List Char) : List Char :=
  removeFirstTriple (dropOpening (inner ++ [btick, btick, btick]))

/-- Structural worker for `stripFences`; the fuel only bounds the number of
fenced blocks processed and is always sufficient at `cs.length` because each
block consumes at least its six backticks. -/
def stripFencesGo : Nat → List Char → List Char
  | 0, cs => cs
  | fuel + 1, cs =>
    match splitAtTriple cs with
    | none => cs
    | some (pre, rest) =>
      match splitAtTriple rest with
      | none => cs
      | some (inner, post) => pre ++ fenceBody inner ++ stripFencesGo fuel post

/-- ``text.replace(/```[\s\S]*?```/g, block => …)``: repeatedly find the next
lazily-matched fenced block and replace it by its processed body. -/
def stripFences (cs : List Char) : List Char :=
  stripFencesGo cs.length cs

/-- The fuel in `stripFencesGo` is irrelevant as long as it dominates the
input length, so `stripFences` satisfies the intended recurrence. -/
theorem stripFencesGo_congr :
    ∀ f1 : Nat, ∀ f2 : Nat, ∀ cs : List Char, cs.length ≤ f1 → cs.length ≤ f2 →
      stripFencesGo f1 cs = stripFencesGo f2 cs := by
  intro f1
  induction f1 using Nat.strong_induction_on with
  | _ f1 ih =>
    intro f2 cs h1 h2
    match f1, f2, cs with
    | f1, f2, [] =>
      cases f1 <;> cases f2 <;> rfl
    | 0, _, c :: cs' => simp at h1
    | _ + 1, 0, c :: cs' => simp at h2
    | f1 + 1, f2 + 1, c :: cs' =>
      rw [stripFencesGo, stripFencesGo]
      split
      next => rfl
      next pre rest heq =>
        split
        next => rfl
        next inner post heq2 =>
          have e1 := splitAtTriple_parts heq
          have e2 := splitAtTriple_parts heq2
          have hlt : post.length + 6 ≤ (c :: cs').length := by
            rw [e1, e2]
            simp
            omega
          simp only [List.length_cons] at h1 h2 hlt
          have := ih f1 (Nat.lt_succ_self f1) f2 post (by omega) (by omega)
          rw [this]

theorem stripFences_eq (cs : List Char) :
    stripFences cs =
      match splitAtTriple cs with
      | none => cs
      | some (pre, rest) =>
        match splitAtTriple rest with
        | none => cs
        | some (inner, post) => pre ++ fenceBody inner ++ stripFences post := by
  cases hc : cs with
  | nil => rfl
  | cons c cs' =>
    show stripFencesGo (cs'.length + 1) (c :: cs') = _
    rw [stripFencesGo]
    split
    next => rfl
    next pre rest heq =>
      split
      next => rfl
      next inner post heq2 =>
        have e1 := splitAtTriple_parts heq
        have e2 := splitAtTriple_parts heq2
        have hlt : post.length + 6 ≤ (c :: cs').length := by
          rw [e1, e2]
          simp
          omega
        simp only [List.length_cons] at hlt
        unfold stripFences
        rw [stripFencesGo_congr cs'.length post.length post (by omega) (by omega)]

/-! ## The parser (AIPanel.jsx / AutomationsTab `parseCommands`) -/

/-- The per-line if/else chain of `parseCommands`, applied to a trimmed line. -/
def parseLine (t : List Char) : Option Cmd :=
  match searchLine clickAt t with
  | some c => some c
  | none =>
  match searchLine clickElementAt t with
  | some c => some c
  | none =>
  match searchLine typeAt t with
  | some c => some c
  | none =>
  match searchLine pressAt t with
  | some c => some c
  | none =>
  match searchLine scrollAt t with
  | some c => some c
  | none =>
  match searchLine navigateAt t with
  | some c => some c
  | none =>
  match searchLine waitAt t with
  | some c => some c
  | none =>
  match searchLine findAt t with
  | some c => some c
  | none => searchLine fillAt t

/-- The `for (const line of lines)` loop: trim, skip blank lines, push the
first matching command. -/
def parseLoop : List (List Char) → List Cmd
  | [] => []
  | line :: rest =>
    let t := trimChars line
    if t = [] then parseLoop rest
    else
      match parseLine t with
      | some c => c :: parseLoop rest
      | none => parseLoop rest

/-- `parseCommands(text)`: strip code-fence markers, split into lines, extract
commands in line order. -/
def parseCommands (s : String) : List Cmd :=
  parseLoop (splitLines (stripFences s.toList))

/-! ## Priority-list formulation used to state the parse order -/

/-- First pattern in the list that matches anywhere in the line. -/
def firstMatch : List (List Char → Option Cmd) → List Char → Option Cmd
  | [], _ => none
  | p :: ps, t =>
    match searchLine p t with
    | some c => some c
    | none => firstMatch ps t

/-- The priority order actually tried by the source, first to last. -/
def priorityPatterns : List (List Char → Option Cmd) :=
  [clickAt, clickElementAt, typeAt, pressAt, scrollAt, navigateAt, waitAt,
    findAt, fillAt]

/-! ## Display cleaning (AIPanel.jsx `cleanMessageText`) -/

/-- One alternative of the anchored cleaner regex
`^(CLICK_ELEMENT|CLICK|TYPE|FILL|PRESS|SCROLL|NAVIGATE|WAIT|FIND)\s*\(`:
the name, optional whitespace, then an opening parenthesis, at the start. -/
def sigTest (name : List Char) (t : List Char) : Bool :=
  match dropLit name t with
  | some r =>
    match wsDrop r with
    | '(' :: _ => true
    | _ => false
  | none => false

/-- The command names of the cleaner's alternation. -/
def cmdNames : List (List Char) :=
  [['C', 'L', 'I', 'C', 'K', '_', 'E', 'L', 'E', 'M', 'E', 'N', 'T'],
   ['C', 'L', 'I', 'C', 'K'],
   ['T', 'Y', 'P', 'E'],
   ['F', 'I', 'L', 'L'],
   ['P', 'R', 'E', 'S', 'S'],
   ['S', 'C', 'R', 'O', 'L', 'L'],
   ['N', 'A', 'V', 'I', 'G', 'A', 'T', 'E'],
   ['W', 'A', 'I', 'T'],
   ['F', 'I', 'N', 'D']]

/-- Does the trimmed line match the cleaner's command-signature regex? -/
def cleanerRemoves (t : List Char) : Bool :=
  cmdNames.any (fun n => sigTest n t)

theorem dropWhile_length_le {α : Type} (p : α → Bool) :
    ∀ cs : List α, (cs.dropWhile p).length ≤ cs.length := by
  intro cs
  induction cs with
  | nil => simp
  | cons c rest ih =>
    by_cases hp : p c
    · simp [List.dropWhile, hp]; omega
    · simp [List.dropWhile, hp]

/-- Structural worker for `collapseBlanks`; fuel `cs.length` always
suffices because every step consumes at least one character.  A run of three
or more newlines begins exactly when the head is a newline and the next two
characters are newlines. -/
def collapseGo : Nat → List Char → List Char
  | 0, cs => cs
  | fuel + 1, cs =>
    match cs with
    | [] => []
    | c :: rest =>
      if c = '\n' ∧ rest.take 2 = ['\n', '\n'] then
        '\n' :: '\n' ::
          collapseGo fuel ((rest.drop 2).dropWhile (fun x => x = '\n'))
      else c :: collapseGo fuel rest

/-- `text.replace(/\n{3,}/g, '\n\n')`: collapse each run of three or more
newlines to exactly two. -/
def collapseBlanks (cs : List Char) : List Char :=
  collapseGo cs.length cs

theorem collapseGo_congr :
    ∀ f1 : Nat, ∀ f2 : Nat, ∀ cs : List Char, cs.length ≤ f1 → cs.length ≤ f2 →
      collapseGo f1 cs = collapseGo f2 cs := by
  intro f1
  induction f1 using Nat.strong_induction_on with
  | _ f1 ih =>
    intro f2 cs h1 h2
    match f1, f2, cs with
    | f1, f2, [] => cases f1 <;> cases f2 <;> rfl
    | 0, _, c :: rest => simp at h1
    | _ + 1, 0, c :: rest => simp at h2
    | f1 + 1, f2 + 1, c :: rest =>
      rw [collapseGo, collapseGo]
      simp only [List.length_cons] at h1 h2
      by_cases hb : c = '\n' ∧ rest.take 2 = ['\n', '\n']
      · rw [if_pos hb, if_pos hb]
        have hd := dropWhile_length_le (fun x => x = '\n') (rest.drop 2)
        have hdl : (rest.drop 2).length ≤ rest.length := by
          simp
        rw [ih f1 (Nat.lt_succ_self f1) f2
          ((rest.drop 2).dropWhile (fun x => x = '\n')) (by omega) (by omega)]
      · rw [if_neg hb, if_neg hb]
        rw [ih f1 (Nat.lt_succ_self f1) f2 rest (by omega) (by omega)]

/-- `cleanMessageText(text)`: drop every line whose trimmed form matches a
command signature, re-join, collapse blank-line runs, and trim. -/
def cleanMessageText (s : String) : String :=
  ⟨trimChars (collapseBlanks (joinLines
      ((splitLines s.toList).filter (fun l => ¬ cleanerRemoves (trimChars l)))))⟩

theorem parseLine_eq_firstMatch (t : List Char) :
    parseLine t = firstMatch priorityPatterns t := by
  simp only [parseLine, priorityPatterns, firstMatch]
  cases searchLine clickAt t <;> try rfl
  cases searchLine clickElementAt t <;> try rfl
  cases searchLine typeAt t <;> try rfl
  cases searchLine pressAt t <;> try rfl
  cases searchLine scrollAt t <;> try rfl
  cases searchLine navigateAt t <;> try rfl
  cases searchLine waitAt t <;> try rfl
  cases searchLine findAt t <;> try rfl
  cases searchLine fillAt t <;> rfl

theorem parseLine_nil : parseLine [] = none := by rfl

theorem parseLoop_eq_filterMap (ls : List (List Char)) :
    parseLoop ls = ls.filterMap (fun l => parseLine (trimChars l)) := by
  induction ls with
  | nil => rfl
  | cons l rest ih =>
    simp only [parseLoop, List.filterMap_cons]
    by_cases ht : trimChars l = []
    · rw [if_pos ht, ht, parseLine_nil, ih]
    · rw [if_neg ht]
      cases hp : parseLine (trimChars l) <;> simp [hp, ih]

/-- Membership in the parse loop comes from one line's match. -/
theorem parseLoop_mem {c : Cmd} :
    ∀ {ls : List (List Char)}, c ∈ parseLoop ls →
      ∃ l ∈ ls, parseLine (trimChars l) = some c := by
  intro ls h
  rw [parseLoop_eq_filterMap] at h
  obtain ⟨l, hl, hp⟩ := List.mem_filterMap.mp h
  exact ⟨l, hl, hp⟩

/-- A successful unanchored search succeeds at some suffix position. -/
theorem searchLine_some {m : List Char → Option Cmd} :
    ∀ {t : List Char} {c : Cmd}, searchLine m t = some c →
      ∃ s, m s = some c := by
  intro t
  induction t with
  | nil => intro c h; exact ⟨[], h⟩
  | cons a rest ih =>
    intro c h
    rw [searchLine] at h
    split at h
    next heq => exact ⟨a :: rest, heq.trans h⟩
    next => exact ih h

/-- The quoted-argument capture `([^"]*)` never contains a double quote. -/
theorem quotedTake_quoteFree {cs : List Char} {s : String} {r : List Char}
    (h : quotedTake cs = some (s, r)) : ∀ ch ∈ s.toList, ¬ ch = '"' := by
  unfold quotedTake at h
  split at h
  next rest =>
    split at h
    next rest2 heq =>
      simp only [Option.some.injEq, Prod.mk.injEq] at h
      intro ch hch
      rw [← h.1] at hch
      have := List.mem_takeWhile_imp hch
      simpa using this
    next => simp at h
  next => simp at h

theorem strCmd1_args {name : List Char} {mk : String → Cmd} {cs : List Char}
    {c : Cmd} (h : strCmd1 name mk cs = some c) :
    ∃ s, c = mk s ∧ ∀ ch ∈ s.toList, ¬ ch = '"' := by
  unfold strCmd1 at h
  split at h
  · exact absurd h (by simp)
  split at h
  · exact absurd h (by simp)
  split at h
  · exact absurd h (by simp)
  next s cs3 heq =>
    split at h
    · exact absurd h (by simp)
    · exact ⟨s, (Option.some.inj h).symm, quotedTake_quoteFree heq⟩

theorem fillAt_args {cs : List Char} {c : Cmd} (h : fillAt cs = some c) :
    ∃ s v, c = Cmd.fill s v ∧ (∀ ch ∈ s.toList, ¬ ch = '"') ∧
      ∀ ch ∈ v.toList, ¬ ch = '"' := by
  unfold fillAt at h
  split at h
  · exact absurd h (by simp)
  split at h
  · exact absurd h (by simp)
  split at h
  · exact absurd h (by simp)
  next s cs3 heq1 =>
    split at h
    · exact absurd h (by simp)
    split at h
    · exact absurd h (by simp)
    next v cs5 heq2 =>
      split at h
      · exact absurd h (by simp)
      · exact ⟨s, v, (Option.some.inj h).symm,
          quotedTake_quoteFree heq1, quotedTake_quoteFree heq2⟩

theorem clickAt_shape {cs : List Char} {c : Cmd} (h : clickAt cs = some c) :
    ∃ x y, c = Cmd.click x y := by
  unfold clickAt at h
  split at h
  · exact absurd h (by simp)
  split at h
  · exact absurd h (by simp)
  split at h
  · exact absurd h (by simp)
  next x cs3 _ =>
    split at h
    · exact absurd h (by simp)
    split at h
    · exact absurd h (by simp)
    next y cs5 _ =>
      split at h
      · exact absurd h (by simp)
      · exact ⟨x, y, (Option.some.inj h).symm⟩

theorem scrollAt_shape {cs : List Char} {c : Cmd} (h : scrollAt cs = some c) :
    ∃ d, c = Cmd.scroll d := by
  unfold scrollAt at h
  split at h
  · exact absurd h (by simp)
  split at h
  · exact absurd h (by simp)
  split at h
  · exact absurd h (by simp)
  next d cs3 _ =>
    split at h
    · exact absurd h (by simp)
    · exact ⟨d, (Option.some.inj h).symm⟩

theorem waitAt_shape {cs : List Char} {c : Cmd} (h : waitAt cs = some c) :
    ∃ n, c = Cmd.wait n := by
  unfold waitAt at h
  split at h
  · exact absurd h (by simp)
  split at h
  · exact absurd h (by simp)
  split at h
  · exact absurd h (by simp)
  next n cs3 _ =>
    split at h
    · exact absurd h (by simp)
    · exact ⟨n, (Option.some.inj h).symm⟩

/-- A `parseLine` hit comes from one of the nine searches. -/
theorem parseLine_cases {t : List Char} {c : Cmd} (h : parseLine t = some c) :
    searchLine clickAt t = some c ∨ searchLine clickElementAt t = some c ∨
    searchLine typeAt t = some c ∨ searchLine pressAt t = some c ∨
    searchLine scrollAt t = some c ∨ searchLine navigateAt t = some c ∨
    searchLine waitAt t = some c ∨ searchLine findAt t = some c ∨
    searchLine fillAt t = some c := by
  unfold parseLine at h
  split at h
  next heq => exact Or.inl (heq.trans h)
  next =>
  split at h
  next heq => exact Or.inr (Or.inl (heq.trans h))
  next =>
  split at h
  next heq => exact Or.inr (Or.inr (Or.inl (heq.trans h)))
  next =>
  split at h
  next heq => exact Or.inr (Or.inr (Or.inr (Or.inl (heq.trans h))))
  next =>
  split at h
  next heq => exact Or.inr (Or.inr (Or.inr (Or.inr (Or.inl (heq.trans h)))))
  next =>
  split at h
  next heq =>
    exact Or.inr (Or.inr (Or.inr (Or.inr (Or.inr (Or.inl (heq.trans h))))))
  next =>
  split at h
  next heq =>
    exact Or.inr (Or.inr (Or.inr (Or.inr (Or.inr (Or.inr (Or.inl
      (heq.trans h)))))))
  next =>
  split at h
  next heq =>
    exact Or.inr (Or.inr (Or.inr (Or.inr (Or.inr (Or.inr (Or.inr (Or.inl
      (heq.trans h))))))))
  next =>
    exact Or.inr (Or.inr (Or.inr (Or.inr (Or.inr (Or.inr (Or.inr
      (Or.inr h)))))))

/-- The string arguments carried by a command. -/
def strArgs : Cmd → List String
  | .click _ _ => []
  | .clickElement s => [s]
  | .typeCmd s => [s]
  | .press s => [s]
  | .scroll _ => []
  | .navigate s => [s]
  | .wait _ => []
  | .find s => [s]
  | .fill a b => [a, b]

/-! ## Claim C1 — parse order and matching discipline -/

/-- C1 counterexample: the claim is false on the code.  The patterns are
unanchored, so a prose line embedding `CLICK(10, 20)` does emit a command;
and `NAVIGATE` is tried before `FILL` (fill is last, not fourth), so a line
matching both emits the navigate command, not the fill command. -/
theorem C1_counterexample :
    parseCommands "Please CLICK(10, 20) now." = [Cmd.click 10 20] ∧
    parseCommands "FILL(\"a\", \"b\") and NAVIGATE(\"u\")"
      = [Cmd.navigate "u"] := by
  constructor <;> rfl

/-- C1 (amended): for every input text the parser strips code fences, splits
into lines, and emits per line the command of the first pattern — in the fixed
priority order click-by-coordinate, click-by-selector, type, press, scroll,
navigate, wait, find, fill — whose call syntax occurs anywhere in the trimmed
line (substring match, not full-line match); a line matching no pattern
contributes no command. -/
theorem C1_parse_priority (s : String) :
    parseCommands s =
      (splitLines (stripFences s.toList)).filterMap
        (fun l => firstMatch priorityPatterns (trimChars l)) := by
  unfold parseCommands
  rw [parseLoop_eq_filterMap]
  simp only [parseLine_eq_firstMatch]

/-! ## Claim C2 — cleaning then parsing (counterexample part) -/

/-- C2 counterexample: the cleaner only removes lines that match a command
signature at their start, while the parser matches anywhere in the line, so
cleaning does not strip an embedded command and re-parsing the cleaned text
still yields it.  A backtick fence split across a command name shows the same
leak through fence stripping. -/
theorem C2_counterexample :
    parseCommands (cleanMessageText "see CLICK(1, 2)") = [Cmd.click 1 2] ∧
    parseCommands (cleanMessageText "CLI```x```CK(1, 2)")
      = [Cmd.click 1 2] := by
  constructor <;> rfl

/-! ## Claim C10 — no double quote can appear in a parsed string argument -/

/-- C10: every string argument of every command the grammar parser emits is
free of the double-quote character: the `([^"]*)` captures cannot cross a
quote, so a line whose quoted argument embeds a double quote never produces
a command carrying it. -/
theorem C10_parsed_args_quote_free (text : String) (c : Cmd)
    (hc : c ∈ parseCommands text) :
    ∀ s ∈ strArgs c, ∀ ch ∈ s.toList, ¬ ch = '"' := by
  obtain ⟨l, _, hp⟩ := parseLoop_mem hc
  rcases parseLine_cases hp with h | h | h | h | h | h | h | h | h <;>
    obtain ⟨suf, hm⟩ := searchLine_some h
  · obtain ⟨x, y, rfl⟩ := clickAt_shape hm
    simp [strArgs]
  · obtain ⟨s, rfl, hq⟩ :=
      strCmd1_args (show strCmd1 _ Cmd.clickElement suf = some c from hm)
    intro s1 hs1
    simp only [strArgs, List.mem_singleton] at hs1
    subst hs1
    exact hq
  · obtain ⟨s, rfl, hq⟩ :=
      strCmd1_args (show strCmd1 _ Cmd.typeCmd suf = some c from hm)
    intro s1 hs1
    simp only [strArgs, List.mem_singleton] at hs1
    subst hs1
    exact hq
  · obtain ⟨s, rfl, hq⟩ :=
      strCmd1_args (show strCmd1 _ Cmd.press suf = some c from hm)
    intro s1 hs1
    simp only [strArgs, List.mem_singleton] at hs1
    subst hs1
    exact hq
  · obtain ⟨d, rfl⟩ := scrollAt_shape hm
    simp [strArgs]
  · obtain ⟨s, rfl, hq⟩ :=
      strCmd1_args (show strCmd1 _ Cmd.navigate suf = some c from hm)
    intro s1 hs1
    simp only [strArgs, List.mem_singleton] at hs1
    subst hs1
    exact hq
  · obtain ⟨n, rfl⟩ := waitAt_shape hm
    simp [strArgs]
  · obtain ⟨s, rfl, hq⟩ :=
      strCmd1_args (show strCmd1 _ Cmd.find suf = some c from hm)
    intro s1 hs1
    simp only [strArgs, List.mem_singleton] at hs1
    subst hs1
    exact hq
  · obtain ⟨s, v, rfl, hq1, hq2⟩ := fillAt_args hm
    intro s1 hs1
    simp only [strArgs, List.mem_cons, List.mem_singleton,
      List.not_mem_nil, or_false] at hs1
    rcases hs1 with rfl | rfl
    · exact hq1
    · exact hq2

/-! ## Claim C2 — supporting lemmas -/

theorem splitLines_nil : splitLines [] = [[]] := rfl

theorem splitLines_ne_nil (cs : List Char) : splitLines cs ≠ [] :=
  List.splitOnP_ne_nil _ cs

theorem splitLines_cons_newline (rest : List Char) :
    splitLines ('\n' :: rest) = [] :: splitLines rest := by
  unfold splitLines List.splitOn
  rw [List.splitOnP_cons]
  simp

theorem splitLines_cons_other {c : Char} (hc : ¬ c = '\n') (rest : List Char) :
    splitLines (c :: rest) = (splitLines rest).modifyHead (c :: ·) := by
  unfold splitLines List.splitOn
  rw [List.splitOnP_cons]
  simp [hc]

/-- Elements of the pieces of `splitOnP` never satisfy the predicate. -/
theorem splitOnP_mem_not {α : Type} (p : α → Bool) :
    ∀ cs : List α, ∀ l ∈ cs.splitOnP p, ∀ x ∈ l, ¬ p x := by
  intro cs
  induction cs with
  | nil =>
    intro l hl
    rw [List.splitOnP_nil] at hl
    simp only [List.mem_singleton] at hl
    subst hl
    simp
  | cons c rest ih =>
    intro l hl
    rw [List.splitOnP_cons] at hl
    by_cases hp : p c
    · rw [if_pos hp] at hl
      rcases List.mem_cons.mp hl with rfl | hmem
      · simp
      · exact ih l hmem
    · rw [if_neg hp] at hl
      match hsp : rest.splitOnP p with
      | [] => exact absurd hsp (List.splitOnP_ne_nil p rest)
      | h0 :: hs =>
        rw [hsp] at hl
        simp only [List.modifyHead] at hl
        rcases List.mem_cons.mp hl with rfl | hmem
        · intro x hx
          rcases List.mem_cons.mp hx with rfl | hx2
          · simpa using hp
          · exact ih h0 (by rw [hsp]; exact List.mem_cons_self _ _) x hx2
        · exact ih l (by rw [hsp]; exact List.mem_cons_of_mem _ hmem)

theorem splitLines_no_newline (cs : List Char) :
    ∀ l ∈ splitLines cs, '\n' ∉ l := by
  intro l hl hn
  have := splitOnP_mem_not (· == '\n') cs l hl '\n' hn
  simp at this

/-- Characters of a line come from the split text. -/
theorem splitLines_mem_chars :
    ∀ cs : List Char, ∀ l ∈ splitLines cs, ∀ x ∈ l, x ∈ cs := by
  intro cs
  induction cs with
  | nil =>
    intro l hl
    rw [splitLines_nil] at hl
    simp only [List.mem_singleton] at hl
    subst hl
    simp
  | cons c rest ih =>
    intro l hl
    by_cases hc : c = '\n'
    · subst hc
      rw [splitLines_cons_newline] at hl
      rcases List.mem_cons.mp hl with rfl | hmem
      · simp
      · intro x hx
        exact List.mem_cons_of_mem _ (ih l hmem x hx)
    · rw [splitLines_cons_other hc] at hl
      match hsp : splitLines rest with
      | [] => exact absurd hsp (splitLines_ne_nil rest)
      | h0 :: hs =>
        rw [hsp] at hl
        simp only [List.modifyHead] at hl
        rcases List.mem_cons.mp hl with rfl | hmem
        · intro x hx
          rcases List.mem_cons.mp hx with rfl | hx2
          · simp
          · exact List.mem_cons_of_mem _
              (ih h0 (by rw [hsp]; exact List.mem_cons_self _ _) x hx2)
        · intro x hx
          exact List.mem_cons_of_mem _
            (ih l (by rw [hsp]; exact List.mem_cons_of_mem _ hmem) x hx)

theorem trimChars_cons_ws {c : Char} (hc : isWs c) (x : List Char) :
    trimChars (c :: x) = trimChars x := by
  unfold trimChars
  rw [List.dropWhile_cons_of_pos hc]

theorem trimChars_chars_subset {x : List Char} {c : Char}
    (h : c ∈ trimChars x) : c ∈ x := by
  unfold trimChars at h
  rw [List.mem_reverse] at h
  have h2 := List.dropWhile_sublist (l := (x.dropWhile (fun c => isWs c)).reverse)
    (p := fun c => isWs c)
  have h3 := h2.mem h
  rw [List.mem_reverse] at h3
  exact (List.dropWhile_sublist _).mem h3

theorem splitLines_dropNewlines_sublist :
    ∀ x : List Char,
      (splitLines (x.dropWhile (fun c => c = '\n'))).Sublist (splitLines x) := by
  intro x
  induction x with
  | nil => simp
  | cons c rest ih =>
    by_cases hc : c = '\n'
    · subst hc
      rw [List.dropWhile_cons_of_pos (by simp), splitLines_cons_newline]
      exact ih.trans (List.Sublist.cons _ (List.Sublist.refl _))
    · rw [List.dropWhile_cons_of_neg (by simpa using hc)]

/-- Two nonempty lists with equal heads and sublist tails are sublists. -/
theorem sublist_of_headI_tail {xs ys : List (List Char)} (hx : xs ≠ [])
    (hy : ys ≠ []) (hh : xs.headI = ys.headI) (ht : xs.tail.Sublist ys.tail) :
    xs.Sublist ys := by
  match xs, ys with
  | x0 :: xt, y0 :: yt =>
    simp only [List.headI, List.tail] at hh ht
    subst hh
    exact List.Sublist.cons₂ _ ht

/-- Collapsing blank runs keeps the first line and drops only whole lines. -/
theorem collapseGo_lines :
    ∀ fuel : Nat, ∀ cs : List Char,
      (splitLines (collapseGo fuel cs)).headI = (splitLines cs).headI ∧
      (splitLines (collapseGo fuel cs)).tail.Sublist (splitLines cs).tail := by
  intro fuel
  induction fuel with
  | zero => intro cs; exact ⟨rfl, List.Sublist.refl _⟩
  | succ fuel ih =>
    intro cs
    match cs with
    | [] => exact ⟨rfl, List.Sublist.refl _⟩
    | c :: rest =>
      have ihSub : ∀ y : List Char,
          (splitLines (collapseGo fuel y)).Sublist (splitLines y) := by
        intro y
        exact sublist_of_headI_tail (splitLines_ne_nil _) (splitLines_ne_nil _)
          (ih y).1 (ih y).2
      rw [collapseGo]
      by_cases hb : c = '\n' ∧ rest.take 2 = ['\n', '\n']
      · rw [if_pos hb]
        obtain ⟨hc, ht⟩ := hb
        subst hc
        have hrest : rest = '\n' :: '\n' :: rest.drop 2 := by
          conv_lhs => rw [← List.take_append_drop 2 rest]
          rw [ht]
          rfl
        rw [splitLines_cons_newline, splitLines_cons_newline]
        constructor
        · rw [splitLines_cons_newline]
          rfl
        · rw [splitLines_cons_newline]
          simp only [List.tail_cons]
          rw [hrest, splitLines_cons_newline, splitLines_cons_newline]
          refine List.Sublist.cons₂ _ ?_
          refine List.Sublist.trans ?_ (List.Sublist.cons _ (List.Sublist.refl _))
          exact (ihSub _).trans (splitLines_dropNewlines_sublist _)
      · rw [if_neg hb]
        by_cases hc : c = '\n'
        · subst hc
          rw [splitLines_cons_newline, splitLines_cons_newline]
          exact ⟨rfl, ihSub rest⟩
        · rw [splitLines_cons_other hc, splitLines_cons_other hc]
          match h1 : splitLines (collapseGo fuel rest), h2 : splitLines rest with
          | [], _ => exact absurd h1 (splitLines_ne_nil _)
          | _ :: _, [] => exact absurd h2 (splitLines_ne_nil _)
          | h0 :: hs, r0 :: rs =>
            have hih := ih rest
            rw [h1, h2] at hih
            simp only [List.headI, List.tail] at hih
            obtain ⟨hhead, htail⟩ := hih
            subst hhead
            exact ⟨rfl, htail⟩

theorem collapseBlanks_lines_mem {cs : List Char} :
    ∀ l ∈ splitLines (collapseBlanks cs), l ∈ splitLines cs := by
  intro l hl
  have h := collapseGo_lines cs.length cs
  have hsub : (splitLines (collapseBlanks cs)).Sublist (splitLines cs) :=
    sublist_of_headI_tail (splitLines_ne_nil _) (splitLines_ne_nil _) h.1 h.2
  exact hsub.mem hl

/-- Dropping leading whitespace only erodes line fronts: every resulting line
trims to the trim of an original line. -/
theorem splitLines_dropWs_mem :
    ∀ x : List Char, ∀ l' ∈ splitLines (x.dropWhile (fun c => isWs c)),
      l' = [] ∨ ∃ l ∈ splitLines x, trimChars l' = trimChars l := by
  intro x
  induction x with
  | nil =>
    intro l' hl'
    rw [List.dropWhile_nil, splitLines_nil] at hl'
    simp only [List.mem_singleton] at hl'
    exact Or.inl hl'
  | cons c rest ih =>
    intro l' hl'
    by_cases hw : isWs c
    · rw [List.dropWhile_cons_of_pos hw] at hl'
      rcases ih l' hl' with h | ⟨l, hl, he⟩
      · exact Or.inl h
      · by_cases hc : c = '\n'
        · subst hc
          refine Or.inr ⟨l, ?_, he⟩
          rw [splitLines_cons_newline]
          exact List.mem_cons_of_mem _ hl
        · match hsp : splitLines rest with
          | [] => exact absurd hsp (splitLines_ne_nil _)
          | r0 :: rs =>
            rw [hsp] at hl
            rcases List.mem_cons.mp hl with rfl | hmem
            · refine Or.inr ⟨c :: l, ?_, ?_⟩
              · rw [splitLines_cons_other hc, hsp]
                exact List.mem_cons_self _ _
              · rw [he, trimChars_cons_ws hw]
            · refine Or.inr ⟨l, ?_, he⟩
              rw [splitLines_cons_other hc, hsp]
              exact List.mem_cons_of_mem _ hmem
    · rw [List.dropWhile_cons_of_neg hw] at hl'
      exact Or.inr ⟨l', hl', rfl⟩

theorem joinLines_kept_mem :
    ∀ ls : List (List Char), (∀ l ∈ ls, '\n' ∉ l) →
      ∀ l' ∈ splitLines (joinLines ls), l' = [] ∨ l' ∈ ls := by
  intro ls hnl l' hl'
  match ls with
  | [] =>
    rw [show joinLines [] = [] from rfl, splitLines_nil] at hl'
    simp only [List.mem_singleton] at hl'
    exact Or.inl hl'
  | l0 :: ls' =>
    unfold splitLines joinLines at hl'
    rw [List.splitOn_intercalate (l0 :: ls') '\n' hnl (by simp)] at hl'
    exact Or.inr hl'

theorem splitAtTriple_eq_none_of_no_btick :
    ∀ {cs : List Char}, btick ∉ cs → splitAtTriple cs = none := by
  intro cs
  induction cs with
  | nil => intro _; rfl
  | cons c rest ih =>
    intro h
    rw [splitAtTriple]
    have hneg : ¬ (c = btick ∧ rest.take 2 = [btick, btick]) := by
      intro hb
      exact h (by rw [← hb.1]; exact List.mem_cons_self _ _)
    rw [if_neg hneg, ih (fun hm => h (List.mem_cons_of_mem _ hm))]

theorem stripFences_of_no_btick {cs : List Char} (h : btick ∉ cs) :
    stripFences cs = cs := by
  unfold stripFences
  match cs with
  | [] => rfl
  | c :: rest =>
    rw [show (c :: rest).length = rest.length + 1 from rfl, stripFencesGo,
      splitAtTriple_eq_none_of_no_btick h]

theorem collapseGo_chars :
    ∀ fuel : Nat, ∀ cs : List Char, ∀ x ∈ collapseGo fuel cs,
      x ∈ cs ∨ x = '\n' := by
  intro fuel
  induction fuel with
  | zero => intro cs x hx; exact Or.inl hx
  | succ fuel ih =>
    intro cs x hx
    match cs with
    | [] => exact Or.inl hx
    | c :: rest =>
      rw [collapseGo] at hx
      by_cases hb : c = '\n' ∧ rest.take 2 = ['\n', '\n']
      · rw [if_pos hb] at hx
        rcases List.mem_cons.mp hx with rfl | hx2
        · exact Or.inr rfl
        rcases List.mem_cons.mp hx2 with rfl | hx3
        · exact Or.inr rfl
        rcases ih _ x hx3 with hmem | hnl
        · have : x ∈ rest.drop 2 := ((List.dropWhile_sublist _).mem hmem)
          exact Or.inl (List.mem_cons_of_mem _ (List.drop_subset 2 rest this))
        · exact Or.inr hnl
      · rw [if_neg hb] at hx
        rcases List.mem_cons.mp hx with rfl | hx2
        · exact Or.inl (List.mem_cons_self _ _)
        rcases ih rest x hx2 with hmem | hnl
        · exact Or.inl (List.mem_cons_of_mem _ hmem)
        · exact Or.inr hnl

theorem joinLines_chars :
    ∀ ls : List (List Char), ∀ x ∈ joinLines ls,
      (∃ l ∈ ls, x ∈ l) ∨ x = '\n' := by
  intro ls
  induction ls with
  | nil => intro x hx; exact absurd hx (by simp [joinLines, List.intercalate])
  | cons l0 ls' ih =>
    intro x hx
    match ls' with
    | [] =>
      have : joinLines [l0] = l0 := by simp [joinLines, List.intercalate]
      rw [this] at hx
      exact Or.inl ⟨l0, List.mem_cons_self _ _, hx⟩
    | l1 :: ls'' =>
      have hstep : joinLines (l0 :: l1 :: ls'') = l0 ++ '\n' :: joinLines (l1 :: ls'') := by
        simp [joinLines, List.intercalate, List.intersperse]
      rw [hstep] at hx
      rcases List.mem_append.mp hx with h0 | h1
      · exact Or.inl ⟨l0, List.mem_cons_self _ _, h0⟩
      rcases List.mem_cons.mp h1 with rfl | h2
      · exact Or.inr rfl
      rcases ih x h2 with ⟨l, hl, hxl⟩ | hnl
      · exact Or.inl ⟨l, List.mem_cons_of_mem _ hl, hxl⟩
      · exact Or.inr hnl

/-- How `splitOnP` acts on an append: all pieces of `a` except the last,
then the pieces of `b` with the dangling last piece of `a` glued onto the
first piece of `b`. -/
theorem splitOnP_append {α : Type} (p : α → Bool) :
    ∀ a b : List α, (a ++ b).splitOnP p =
      (a.splitOnP p).dropLast ++
        (b.splitOnP p).modifyHead (fun m => (a.splitOnP p).getLastD [] ++ m) := by
  intro a
  induction a with
  | nil =>
    intro b
    rw [List.nil_append, List.splitOnP_nil]
    cases b.splitOnP p <;> simp [List.modifyHead]
  | cons c a' ih =>
    intro b
    rw [List.cons_append, List.splitOnP_cons, List.splitOnP_cons]
    by_cases hp : p c
    · rw [if_pos hp, if_pos hp, ih b]
      match hsp : a'.splitOnP p with
      | [] => exact absurd hsp (List.splitOnP_ne_nil _ _)
      | s0 :: ss => simp [List.getLastD_cons]
    · rw [if_neg hp, if_neg hp, ih b]
      match hsp : a'.splitOnP p, hsb : b.splitOnP p with
      | [], _ => exact absurd hsp (List.splitOnP_ne_nil _ _)
      | _, [] => exact absurd hsb (List.splitOnP_ne_nil _ _)
      | [s0], b0 :: bs => simp [List.modifyHead]
      | s0 :: s1 :: ss, b0 :: bs =>
        simp [List.modifyHead, List.getLastD_cons]

/-- `splitOnP` of a reversed list is the reversed, piecewise-reversed split. -/
theorem splitOnP_reverse {α : Type} (p : α → Bool) :
    ∀ z : List α, z.reverse.splitOnP p =
      ((z.splitOnP p).map List.reverse).reverse := by
  intro z
  induction z with
  | nil => rfl
  | cons c z' ih =>
    rw [List.reverse_cons, splitOnP_append, ih]
    by_cases hp : p c
    · rw [show List.splitOnP p [c] = [[], []] from by
        rw [List.splitOnP_cons, if_pos hp, List.splitOnP_nil]]
      rw [show List.splitOnP p (c :: z') = [] :: List.splitOnP p z' from by
        rw [List.splitOnP_cons, if_pos hp]]
      match hsp : z'.splitOnP p with
      | [] => exact absurd hsp (List.splitOnP_ne_nil _ _)
      | s0 :: ss =>
        simp [List.modifyHead, List.dropLast_concat]
    · rw [show List.splitOnP p [c] = [[c]] from by
        rw [List.splitOnP_cons, if_neg hp, List.splitOnP_nil]
        rfl]
      rw [show List.splitOnP p (c :: z')
            = (List.splitOnP p z').modifyHead (c :: ·) from by
        rw [List.splitOnP_cons, if_neg hp]]
      match hsp : z'.splitOnP p with
      | [] => exact absurd hsp (List.splitOnP_ne_nil _ _)
      | s0 :: ss =>
        simp [List.modifyHead, List.dropLast_concat]

/-- Dropping trailing whitespace of an all-whitespace list leaves nothing. -/
theorem dwB_of_all_ws {y : List Char} (h : ∀ x ∈ y, isWs x) :
    (y.reverse.dropWhile (fun c => isWs c)).reverse = [] := by
  have : y.reverse.dropWhile (fun c => isWs c) = [] :=
    List.dropWhile_eq_nil_iff.mpr (fun x hx => h x (List.mem_reverse.mp hx))
  rw [this]
  rfl

/-- Dropping trailing whitespace ignores the head when a non-whitespace
character exists later. -/
theorem dwB_cons_of_ex {c : Char} {y : List Char}
    (h : ∃ x ∈ y, ¬ isWs x) :
    ((c :: y).reverse.dropWhile (fun c => isWs c)).reverse =
      c :: (y.reverse.dropWhile (fun c => isWs c)).reverse := by
  rw [List.reverse_cons, List.dropWhile_append]
  have hne : ¬ (y.reverse.dropWhile (fun c => isWs c)).isEmpty = true := by
    intro he
    rw [List.isEmpty_iff] at he
    obtain ⟨x, hx, hnw⟩ := h
    exact hnw (List.dropWhile_eq_nil_iff.mp he x (List.mem_reverse.mpr hx))
  rw [if_neg hne, List.reverse_append]
  rfl

/-- Leading-trim and trailing-trim commute. -/
theorem dwF_dwB_comm :
    ∀ y : List Char,
      ((y.dropWhile (fun c => isWs c)).reverse.dropWhile
          (fun c => isWs c)).reverse =
        ((y.reverse.dropWhile (fun c => isWs c)).reverse).dropWhile
          (fun c => isWs c) := by
  intro y
  induction y with
  | nil => rfl
  | cons c rest ih =>
    by_cases hw : isWs c
    · rw [List.dropWhile_cons_of_pos hw]
      by_cases hall : ∀ x ∈ rest, isWs x
      · have h1 : rest.dropWhile (fun c => isWs c) = [] :=
          List.dropWhile_eq_nil_iff.mpr hall
        rw [h1]
        have h2 : ((c :: rest).reverse.dropWhile (fun c => isWs c)).reverse = [] :=
          dwB_of_all_ws (by
            intro x hx
            rcases List.mem_cons.mp hx with rfl | hx2
            · exact hw
            · exact hall x hx2)
        rw [h2]
        rfl
      · push_neg at hall
        obtain ⟨x, hx, hnw⟩ := hall
        rw [dwB_cons_of_ex ⟨x, hx, fun hb => hnw hb⟩]
        rw [List.dropWhile_cons_of_pos hw]
        exact ih
    · rw [List.dropWhile_cons_of_neg hw]
      by_cases hall : ∀ x ∈ rest, isWs x
      · have h2 : ((c :: rest).reverse.dropWhile (fun c => isWs c)).reverse
            = [c] := by
          rw [List.reverse_cons, List.dropWhile_append]
          have he : (rest.reverse.dropWhile (fun c => isWs c)).isEmpty = true := by
            rw [List.isEmpty_iff]
            exact List.dropWhile_eq_nil_iff.mpr
              (fun x hx => hall x (List.mem_reverse.mp hx))
          rw [if_pos he, List.dropWhile_cons_of_neg hw]
          rfl
        rw [h2, List.dropWhile_cons_of_neg hw]
      · push_neg at hall
        obtain ⟨x, hx, hnw⟩ := hall
        rw [dwB_cons_of_ex ⟨x, hx, fun hb => hnw hb⟩,
          List.dropWhile_cons_of_neg hw]

/-- Trimming commutes with reversal. -/
theorem trimChars_reverse (a : List Char) :
    trimChars a.reverse = (trimChars a).reverse := by
  unfold trimChars
  rw [dwF_dwB_comm a.reverse, List.reverse_reverse, List.reverse_reverse]

/-- Dropping trailing whitespace only erodes line ends: every resulting line
trims like an original line. -/
theorem splitLines_dwB_mem :
    ∀ z : List Char,
      ∀ l' ∈ splitLines ((z.reverse.dropWhile (fun c => isWs c)).reverse),
        trimChars l' = [] ∨
          ∃ l ∈ splitLines z, trimChars l' = trimChars l := by
  intro z l' hl'
  unfold splitLines List.splitOn at hl'
  rw [splitOnP_reverse] at hl'
  rw [List.mem_reverse, List.mem_map] at hl'
  obtain ⟨m, hm, hrev⟩ := hl'
  have hF := splitLines_dropWs_mem z.reverse m (by
    unfold splitLines List.splitOn
    exact hm)
  rcases hF with rfl | ⟨l1, hl1, he⟩
  · left
    rw [← hrev]
    rfl
  · unfold splitLines List.splitOn at hl1
    rw [splitOnP_reverse, List.mem_reverse, List.mem_map] at hl1
    obtain ⟨l0, hl0, hrev0⟩ := hl1
    right
    refine ⟨l0, hl0, ?_⟩
    rw [← hrev, trimChars_reverse, he, ← hrev0, trimChars_reverse,
      List.reverse_reverse]

/-- Every line of the trimmed text trims to the trim of some original line,
or trims to nothing. -/
theorem trimChars_lines_mem :
    ∀ z : List Char, ∀ l' ∈ splitLines (trimChars z),
      trimChars l' = [] ∨
        ∃ l ∈ splitLines z, trimChars l' = trimChars l := by
  intro z l' hl'
  have hB := splitLines_dwB_mem (z.dropWhile (fun c => isWs c)) l' hl'
  rcases hB with h0 | ⟨l, hl, he⟩
  · exact Or.inl h0
  · rcases splitLines_dropWs_mem z l hl with rfl | ⟨l2, hl2, he2⟩
    · left
      rw [he]
      rfl
    · right
      exact ⟨l2, hl2, he.trans he2⟩

/-- Structure of the cleaned text: every line trims to nothing or trims like
an original line that the cleaner kept. -/
theorem cleanMessageText_lines (s : String) :
    ∀ l' ∈ splitLines (cleanMessageText s).toList,
      trimChars l' = [] ∨
        ∃ l ∈ splitLines s.toList, trimChars l' = trimChars l ∧
          cleanerRemoves (trimChars l) = false := by
  intro l' hl'
  have hl'2 : l' ∈ splitLines (trimChars (collapseBlanks (joinLines
      ((splitLines s.toList).filter
        (fun l => ¬ cleanerRemoves (trimChars l)))))) := hl'
  rcases trimChars_lines_mem _ l' hl'2 with h0 | ⟨l1, hl1, he1⟩
  · exact Or.inl h0
  · have hl1b := collapseBlanks_lines_mem _ hl1
    have hkeptnl : ∀ l ∈ (splitLines s.toList).filter
        (fun l => ¬ cleanerRemoves (trimChars l)), '\n' ∉ l := by
      intro l hlf
      exact splitLines_no_newline s.toList l (List.mem_filter.mp hlf).1
    rcases joinLines_kept_mem _ hkeptnl l1 hl1b with rfl | hkept
    · left
      rw [he1]
      rfl
    · obtain ⟨hmem, hpred⟩ := List.mem_filter.mp hkept
      right
      refine ⟨l1, hmem, he1, ?_⟩
      simpa using hpred

theorem cleanMessageText_no_btick {s : String} (h : btick ∉ s.toList) :
    btick ∉ (cleanMessageText s).toList := by
  intro hmem
  have h1 := trimChars_chars_subset hmem
  rcases collapseGo_chars _ _ _ h1 with h2 | h2
  · rcases joinLines_chars _ _ h2 with ⟨l, hlk, hbl⟩ | h3
    · have hls : l ∈ splitLines s.toList := (List.mem_filter.mp hlk).1
      exact h (splitLines_mem_chars _ l hls btick hbl)
    · exact absurd h3 (by decide)
  · exact absurd h2 (by decide)

/-! ## Claim C2 — amended theorem -/

/-- C2 (amended): cleaning strips exactly the lines whose trimmed form begins
with a command signature, so re-parsing the cleaned text yields no command for
every text that (a) contains no backtick (so fence stripping cannot merge text
across lines) and (b) has no line with an embedded command occurrence that the
anchored cleaner test misses: every line either has no command match at all or
matches a command signature at the start of its trimmed form. -/
theorem C2_clean_then_parse_empty (s : String)
    (hb : btick ∉ s.toList)
    (hl : ∀ l ∈ splitLines s.toList,
      parseLine (trimChars l) = none ∨ cleanerRemoves (trimChars l) = true) :
    parseCommands (cleanMessageText s) = [] := by
  unfold parseCommands
  rw [stripFences_of_no_btick (cleanMessageText_no_btick hb),
    parseLoop_eq_filterMap]
  rw [List.filterMap_eq_nil_iff]
  intro l' hl'
  rcases cleanMessageText_lines s l' hl' with h0 | ⟨l, hmem, heq, hkeep⟩
  · rw [h0]
    exact parseLine_nil
  · rw [heq]
    rcases hl l hmem with hnone | hrem
    · exact hnone
    · rw [hrem] at hkeep
      cases hkeep

/-- Witness for C2 at a concrete input with prose, a command line and a
blank-run. -/
theorem C2_clean_then_parse_empty_witness :
    parseCommands (cleanMessageText "hello\nCLICK(1, 2)\n\n\n\nworld") = [] :=
  C2_clean_then_parse_empty "hello\nCLICK(1, 2)\n\n\n\nworld"
    (by decide) (by decide)

/-- Witness for C10 at a concrete input. -/
theorem C10_witness :
    Cmd.fill "#email" "a@b.com" ∈ parseCommands "FILL(\"#email\", \"a@b.com\")" ∧
    ∀ s ∈ strArgs (Cmd.fill "#email" "a@b.com"), ∀ ch ∈ s.toList, ¬ ch = '"' :=
  ⟨by decide,
    C10_parsed_args_quote_free "FILL(\"#email\", \"a@b.com\")" _ (by decide)⟩

/-! ## Execution tracker (AIPanel.jsx `executeAutomationCommands`)

The loop drives one step per command: it reports `{status: 'running'}`, awaits
the automation call, and reports `{status: 'done', duration}` on a clean
result, or `{status: 'error', detail, duration}` when the result carries an
`error` field or the call throws.  The automation results and the elapsed
wall-clock durations are environment inputs, modelled by `Outcome` and a
per-step duration. -/

/-- Result of one `window.browserAPI.automation.*` call. -/
inductive Outcome where
  | ok
  | errResult (msg : String)
  | threw (msg : String)
  deriving DecidableEq, Repr

/-- One step-update event passed to `onStepUpdate`. -/
inductive Upd where
  | running
  | doneU (duration : Nat)
  | errorU (detail : String) (duration : Nat)
  deriving DecidableEq, Repr

/-- `describeCommand(cmd)` (AIPanel.jsx). -/
def describeCommand : Cmd → String
  | .click x y => "Click at (" ++ toString x ++ ", " ++ toString y ++ ")"
  | .clickElement sel => "Click \"" ++ sel ++ "\""
  | .typeCmd text =>
    "Type \"" ++ (if text.length > 30 then text.take 30 ++ "…" else text) ++ "\""
  | .fill sel v =>
    "Fill \"" ++ sel ++ "\" → \"" ++
      (if v.length > 20 then v.take 20 ++ "…" else v) ++ "\""
  | .press k => "Press " ++ k
  | .scroll d =>
    "Scroll " ++ (if d > 0 then "down" else "up") ++ " " ++
      toString d.natAbs ++ "px"
  | .navigate url =>
    "Navigate → " ++ (if url.length > 40 then url.take 40 ++ "…" else url)
  | .wait ms => "Wait " ++ toString ms ++ "ms"
  | .find sel => "Find \"" ++ sel ++ "\""

/-- One executed command with its observed outcome and elapsed duration. -/
structure StepRun where
  cmd : Cmd
  outcome : Outcome
  duration : Nat
  deriving DecidableEq, Repr

/-- The terminal update the loop reports for one step. -/
def terminalUpd (s : StepRun) : Upd :=
  match s.outcome with
  | .ok => Upd.doneU s.duration
  | .errResult m =>
    Upd.errorU (describeCommand s.cmd ++ " — " ++ m) s.duration
  | .threw m =>
    Upd.errorU (describeCommand s.cmd ++ " — " ++ m) s.duration

/-- The two `onStepUpdate` events of step `i`. -/
def stepUpd (i : Nat) (s : StepRun) : List (Nat × Upd) :=
  [(i, Upd.running), (i, terminalUpd s)]

/-- The loop body from index `i` on: the catch clause continues with the next
command, so every remaining step still runs. -/
def execTraceFrom (i : Nat) : List StepRun → List (Nat × Upd)
  | [] => []
  | s :: rest => stepUpd i s ++ execTraceFrom (i + 1) rest

/-- The full `onStepUpdate` event trace of `executeAutomationCommands`. -/
def execTrace (steps : List StepRun) : List (Nat × Upd) :=
  execTraceFrom 0 steps

/-- The updates step `k` receives, in order. -/
def updatesFor (k : Nat) (tr : List (Nat × Upd)) : List Upd :=
  (tr.filter (fun e => e.1 = k)).map (fun e => e.2)

/-- Rank of a status in the `pending → running → {done | error}` machine. -/
def updRank : Upd → Nat
  | .running => 1
  | .doneU _ => 2
  | .errorU _ _ => 2

theorem execTraceFrom_ge :
    ∀ (steps : List StepRun) (i : Nat), ∀ e ∈ execTraceFrom i steps, i ≤ e.1 := by
  intro steps
  induction steps with
  | nil => intro i e he; simp [execTraceFrom] at he
  | cons s rest ih =>
    intro i e he
    rw [execTraceFrom] at he
    rcases List.mem_append.mp he with h1 | h2
    · rcases List.mem_cons.mp h1 with rfl | h1b
      · exact Nat.le_refl i
      rcases List.mem_cons.mp h1b with rfl | h1c
      · exact Nat.le_refl i
      · simp at h1c
    · exact Nat.le_of_succ_le (ih (i + 1) e h2)

theorem updatesFor_execTraceFrom :
    ∀ (steps : List StepRun) (i k : Nat) (hk : k < steps.length),
      updatesFor (i + k) (execTraceFrom i steps)
        = [Upd.running, terminalUpd (steps.get ⟨k, hk⟩)] := by
  intro steps
  induction steps with
  | nil => intro i k hk; simp at hk
  | cons s rest ih =>
    intro i k hk
    match k with
    | 0 =>
      unfold updatesFor
      rw [execTraceFrom, List.filter_append]
      have hrest : (execTraceFrom (i + 1) rest).filter
          (fun e => e.1 = i + 0) = [] := by
        rw [List.filter_eq_nil_iff]
        intro e he
        have := execTraceFrom_ge rest (i + 1) e he
        simp only [decide_eq_true_eq]
        omega
      rw [hrest, List.append_nil]
      simp [stepUpd, List.filter]
    | k' + 1 =>
      unfold updatesFor
      rw [execTraceFrom, List.filter_append]
      have hstep : (stepUpd i s).filter (fun e => e.1 = i + (k' + 1)) = [] := by
        simp [stepUpd, List.filter]
        try omega
      rw [hstep, List.nil_append]
      have hk' : k' < rest.length := by
        simp at hk
        omega
      have := ih (i + 1) k' hk'
      unfold updatesFor at this
      rw [show i + (k' + 1) = i + 1 + k' by omega]
      rw [this]
      rfl

/-! ## Claim C3 — the step state machine -/

/-- C3: for every executed command list and every index `k`, step `k` receives
exactly the updates `running` then a terminal update (so no step is ever left
pending or running, regardless of earlier failures); the status ranks along
`pending, running, terminal` are strictly increasing — the terminal status is
set exactly once and statuses never regress; and when command `k` throws or
returns an error result, its terminal update is `error` carrying the
describe-text with the message and a (non-null) duration. -/
theorem C3_step_state_machine (steps : List StepRun) (k : Nat)
    (hk : k < steps.length) :
    updatesFor k (execTrace steps)
        = [Upd.running, terminalUpd (steps.get ⟨k, hk⟩)] ∧
    updRank (terminalUpd (steps.get ⟨k, hk⟩)) = 2 ∧
    List.Chain' (· < ·)
      (0 :: (updatesFor k (execTrace steps)).map updRank) ∧
    (∀ m, ((steps.get ⟨k, hk⟩).outcome = Outcome.threw m ∨
           (steps.get ⟨k, hk⟩).outcome = Outcome.errResult m) →
      terminalUpd (steps.get ⟨k, hk⟩)
        = Upd.errorU (describeCommand (steps.get ⟨k, hk⟩).cmd ++ " — " ++ m)
            (steps.get ⟨k, hk⟩).duration) := by
  have hupd : updatesFor k (execTrace steps)
      = [Upd.running, terminalUpd (steps.get ⟨k, hk⟩)] := by
    have := updatesFor_execTraceFrom steps 0 k hk
    rw [Nat.zero_add] at this
    exact this
  have hterm : updRank (terminalUpd (steps.get ⟨k, hk⟩)) = 2 := by
    unfold terminalUpd
    cases (steps.get ⟨k, hk⟩).outcome <;> rfl
  refine ⟨hupd, hterm, ?_, ?_⟩
  · rw [hupd]
    simp only [List.map_cons, List.map_nil, List.chain'_cons, List.chain'_singleton]
    refine ⟨by decide, ?_, trivial⟩
    rw [show updRank Upd.running = 1 from rfl, hterm]
    omega
  · intro m hm
    unfold terminalUpd
    rcases hm with h | h <;> rw [h]

/-- A three-step run whose middle command throws, for the C3 witness. -/
def demoSteps : List StepRun :=
  [⟨Cmd.click 1 2, Outcome.ok, 5⟩,
   ⟨Cmd.navigate "x", Outcome.threw "boom", 7⟩,
   ⟨Cmd.wait 3, Outcome.ok, 2⟩]

/-- Witness for C3: the failing middle step still gets running then error with
its message and duration, and the following step still executes. -/
theorem C3_witness :
    updatesFor 1 (execTrace demoSteps)
      = [Upd.running, Upd.errorU "Navigate → x — boom" 7] ∧
    updatesFor 2 (execTrace demoSteps)
      = [Upd.running, Upd.doneU 2] := by
  constructor
  · have h := C3_step_state_machine demoSteps 1 (by decide)
    rw [h.1]
    rfl
  · have h := C3_step_state_machine demoSteps 2 (by decide)
    rw [h.1]
    rfl

/-! ## AI service (src/main/ai-service.js)

Provider configuration, validation and dispatch.  A missing `apiKey`,
`baseUrl` or `model` is modelled by the empty string (the JS falsy check
`!provider.apiKey` treats `undefined` and `''` alike).  The HTTP exchange a
backend function performs is an environment input (`NetBehavior`); each
modelled backend path records how many `fetch` calls it makes. -/

structure Provider where
  name : String
  apiKey : String
  baseUrl : String
  model : String
  deriving DecidableEq, Repr

/-- `provider.name === 'ollama' || provider.name === 'lmstudio'`. -/
def isLocalProvider (p : Provider) : Bool :=
  p.name = "ollama" || p.name = "lmstudio"

/-- `validateProvider`: the configuration error thrown, if any, in source
order (key, then baseUrl, then model; the Anthropic key-shape check only
logs). -/
def validateProvider (p : Provider) : Option String :=
  if ¬ isLocalProvider p ∧ p.apiKey = "" then
    some ("No API key configured for " ++ p.name ++
      ". Please add your API key in Settings.")
  else if p.baseUrl = "" then
    some ("No base URL configured for " ++ p.name ++ ". Please check Settings.")
  else if p.model = "" then
    some ("No model specified for " ++ p.name ++ ". Please check Settings.")
  else none

/-- The four request paths of the `switch (provider.name)` in `chat`. -/
inductive ChatPath where
  | gemini
  | anthropic
  | ollama
  | openaiCompatible
  deriving DecidableEq, Repr

/-- Dispatch of `chat`: three named cases, every other name falls to the
OpenAI-compatible default. -/
def chatPathFor (name : String) : ChatPath :=
  if name = "gemini" then ChatPath.gemini
  else if name = "anthropic" then ChatPath.anthropic
  else if name = "ollama" then ChatPath.ollama
  else ChatPath.openaiCompatible

/-- Dispatch of `chatStream`: same case structure as `chat`. -/
def streamPathFor (name : String) : ChatPath :=
  if name = "gemini" then ChatPath.gemini
  else if name = "anthropic" then ChatPath.anthropic
  else if name = "ollama" then ChatPath.ollama
  else ChatPath.openaiCompatible

structure ChatResult where
  content : String
  model : String
  provider : String
  deriving DecidableEq, Repr

/-- Outcome of the single HTTP exchange a backend chat function performs. -/
inductive NetBehavior where
  | ok (result : ChatResult)
  | fail (msg : String)
  deriving DecidableEq, Repr

/-- Errors surfaced by `chat`: a configuration error thrown by
`validateProvider` before any network call, or a post-network failure
(backend / connection / abort), which is never a configuration error. -/
inductive ChatErr where
  | config (msg : String)
  | other (msg : String)
  deriving DecidableEq, Repr

/-- `_chatGemini`: one fetch. -/
def chatGeminiM (beh : NetBehavior) : Nat × Except ChatErr ChatResult :=
  (1, match beh with
      | .ok r => .ok r
      | .fail m => .error (.other m))

/-- `_chatAnthropic`: one fetch. -/
def chatAnthropicM (beh : NetBehavior) : Nat × Except ChatErr ChatResult :=
  (1, match beh with
      | .ok r => .ok r
      | .fail m => .error (.other m))

/-- `_chatOllama`: one fetch. -/
def chatOllamaM (beh : NetBehavior) : Nat × Except ChatErr ChatResult :=
  (1, match beh with
      | .ok r => .ok r
      | .fail m => .error (.other m))

/-- `_chatOpenAICompatible`: one fetch. -/
def chatOpenAICompatibleM (beh : NetBehavior) : Nat × Except ChatErr ChatResult :=
  (1, match beh with
      | .ok r => .ok r
      | .fail m => .error (.other m))

/-- `chat(messages, providerName)`: validate, then dispatch; returns the
number of fetches made and the result. -/
def chat (p : Provider) (beh : NetBehavior) : Nat × Except ChatErr ChatResult :=
  match validateProvider p with
  | some msg => (0, .error (.config msg))
  | none =>
    match chatPathFor p.name with
    | .gemini => chatGeminiM beh
    | .anthropic => chatAnthropicM beh
    | .ollama => chatOllamaM beh
    | .openaiCompatible => chatOpenAICompatibleM beh

/-- The spec's validity condition, stated in its own words: local providers
are exempt from the key requirement only, and baseUrl and model must be
non-empty. -/
def specValidConfig (p : Provider) : Bool :=
  (isLocalProvider p || ¬ p.apiKey = "") &&
    (¬ p.baseUrl = "") && (¬ p.model = "")

/-- `listModels(providerName)`: provider-specific listing; the Gemini branch
additionally requires a key; any unrecognized name raises `Unknown
provider`. -/
def listModels (p : Provider) (beh : Except String (List String)) :
    Except String (List String) :=
  if p.name = "openai" || p.name = "openrouter" || p.name = "lmstudio" then beh
  else if p.name = "anthropic" then beh
  else if p.name = "gemini" then
    if p.apiKey = "" then .error "Gemini API key is required" else beh
  else if p.name = "ollama" then beh
  else .error ("Unknown provider: " ++ p.name)

/-! ## Claim C6 — strict validation before network, one request per call -/

/-- C6: `validateProvider` accepts exactly the spec-valid configurations
(cloud providers need a key, the two local providers are exempt from the key
requirement only, and baseUrl/model must be non-empty); an invalid
configuration makes `chat` fail with a configuration error after zero network
calls, and every valid configuration performs exactly one network request. -/
theorem C6_validation_and_single_request (p : Provider) (beh : NetBehavior) :
    (validateProvider p = none ↔ specValidConfig p = true) ∧
    (chat p beh).1 = (if specValidConfig p then 1 else 0) ∧
    ((∃ m, (chat p beh).2 = Except.error (ChatErr.config m)) ↔
      specValidConfig p = false) := by
  have hiff : validateProvider p = none ↔ specValidConfig p = true := by
    unfold validateProvider specValidConfig
    by_cases hL : isLocalProvider p = true <;>
      by_cases hK : p.apiKey = "" <;>
        by_cases hB : p.baseUrl = "" <;>
          by_cases hM : p.model = "" <;>
            simp [hL, hK, hB, hM]
  refine ⟨hiff, ?_, ?_⟩
  · by_cases hs : specValidConfig p = true
    · rw [if_pos hs]
      unfold chat
      rw [hiff.mpr hs]
      cases chatPathFor p.name <;> cases beh <;> rfl
    · rw [if_neg hs]
      unfold chat
      match hv : validateProvider p with
      | none => exact absurd (hiff.mp hv) hs
      | some msg => rfl
  · by_cases hs : specValidConfig p = true
    · constructor
      · rintro ⟨m, hm⟩
        exfalso
        unfold chat at hm
        rw [hiff.mpr hs] at hm
        cases hp : chatPathFor p.name <;> rw [hp] at hm <;> cases beh <;>
          simp [chatGeminiM, chatAnthropicM, chatOllamaM,
            chatOpenAICompatibleM] at hm
      · intro hfalse
        rw [hs] at hfalse
        cases hfalse
    · have hsf : specValidConfig p = false := by simpa using hs
      match hv : validateProvider p with
      | none => exact absurd (hiff.mp hv) hs
      | some msg =>
        constructor
        · intro _
          exact hsf
        · intro _
          refine ⟨msg, ?_⟩
          unfold chat
          rw [hv]

/-! ## Claim C9 — default dispatch vs listModels unknown-provider error -/

/-- C9: for every provider name other than `gemini`, `anthropic` and
`ollama` — including names that are not supported at all — `chat` and
`chatStream` dispatch to the OpenAI-compatible path rather than failing,
whereas `listModels` with a name outside its six recognized providers fails
with an `Unknown provider` error. -/
theorem C9_unknown_provider_dispatch (name : String)
    (h1 : name ≠ "gemini") (h2 : name ≠ "anthropic") (h3 : name ≠ "ollama") :
    chatPathFor name = ChatPath.openaiCompatible ∧
    streamPathFor name = ChatPath.openaiCompatible ∧
    ∀ (p : Provider) (beh : Except String (List String)), p.name = name →
      name ≠ "openai" → name ≠ "openrouter" → name ≠ "lmstudio" →
      listModels p beh = Except.error ("Unknown provider: " ++ name) := by
  refine ⟨?_, ?_, ?_⟩
  · unfold chatPathFor
    rw [if_neg h1, if_neg h2, if_neg h3]
  · unfold streamPathFor
    rw [if_neg h1, if_neg h2, if_neg h3]
  · intro p beh hp h4 h5 h6
    unfold listModels
    rw [hp]
    rw [if_neg (by simp [h4, h5, h6]), if_neg h2, if_neg h1, if_neg h3]

/-- Witness for C9 at the unsupported name `mistral`. -/
theorem C9_witness :
    chatPathFor "mistral" = ChatPath.openaiCompatible ∧
    streamPathFor "mistral" = ChatPath.openaiCompatible ∧
    listModels ⟨"mistral", "k", "u", "m"⟩ (Except.ok ["a"]) =
      Except.error "Unknown provider: mistral" := by
  have h := C9_unknown_provider_dispatch "mistral"
    (by decide) (by decide) (by decide)
  refine ⟨h.1, h.2.1, ?_⟩
  have h2 := h.2.2 ⟨"mistral", "k", "u", "m"⟩ (Except.ok ["a"]) rfl
    (by decide) (by decide) (by decide)
  simpa using h2

/-! ## Request lifecycle manager (`abort`, `_makeController`)

Controllers are numbered by creation order.  `live` models
`activeControllers`; `aborted` the set of controllers whose signal has fired;
`timers` the armed timeout timers.  The `{once: true}` abort listeners of
`_makeController` clear the timer and delete the controller from the live set
the moment it is aborted, and an `AbortController` cannot abort twice. -/

structure LMState where
  live : List Nat
  aborted : List Nat
  timers : List Nat
  next : Nat
  deriving DecidableEq, Repr

def initLM : LMState := ⟨[], [], [], 0⟩

/-- `controller.abort()` plus the registered abort listeners: a second abort
is a no-op; otherwise the timer is cleared and `cleanup` removes the
controller from the live set. -/
def abortCtrl (s : LMState) (id : Nat) : LMState :=
  if id ∈ s.aborted then s
  else { live := s.live.erase id, aborted := id :: s.aborted,
         timers := s.timers.erase id, next := s.next }

/-- `_makeController` with a positive timeout: track a fresh controller and
arm its timer. -/
def makeController (s : LMState) : LMState × Nat :=
  ({ live := s.next :: s.live, aborted := s.aborted,
     timers := s.next :: s.timers, next := s.next + 1 }, s.next)

/-- A timeout firing: only an armed timer can fire (abort cleared it),
and it aborts the controller and cleans up. -/
def timeoutFire (s : LMState) (id : Nat) : LMState :=
  if id ∈ s.timers then abortCtrl s id else s

/-- `abort()`: aborts every member of the live set (counting as it goes; the
abort listener deletes the current member, which is safe during Set
iteration), then clears the set and returns the count. -/
def abortAll (s : LMState) : Nat × LMState :=
  (s.live.length, { (s.live.foldl abortCtrl s) with live := [] })

/-- States reachable through the manager's operations. -/
inductive Reach : LMState → Prop where
  | init : Reach initLM
  | make {s : LMState} : Reach s → Reach (makeController s).1
  | timeout {s : LMState} (id : Nat) : Reach s → Reach (timeoutFire s id)
  | abortStep {s : LMState} : Reach s → Reach (abortAll s).2

/-- The manager's state invariant. -/
def InvLM (s : LMState) : Prop :=
  s.live.Nodup ∧ (∀ id ∈ s.live, id ∉ s.aborted) ∧
  (∀ id ∈ s.live, id < s.next) ∧ (∀ id ∈ s.aborted, id < s.next) ∧
  (∀ id ∈ s.timers, id < s.next)

theorem abortCtrl_next (s : LMState) (id : Nat) :
    (abortCtrl s id).next = s.next := by
  unfold abortCtrl
  split <;> rfl

theorem abortCtrl_aborted_mono {s : LMState} {a : Nat} (id : Nat)
    (h : a ∈ s.aborted) : a ∈ (abortCtrl s id).aborted := by
  unfold abortCtrl
  split
  · exact h
  · exact List.mem_cons_of_mem _ h

theorem abortCtrl_live_sub {s : LMState} {a : Nat} {id : Nat}
    (h : a ∈ (abortCtrl s id).live) : a ∈ s.live := by
  unfold abortCtrl at h
  split at h
  · exact h
  · exact List.mem_of_mem_erase h

theorem abortCtrl_aborted_from {s : LMState} {a : Nat} {id : Nat}
    (h : a ∈ (abortCtrl s id).aborted) : a = id ∨ a ∈ s.aborted := by
  unfold abortCtrl at h
  split at h
  · exact Or.inr h
  · rcases List.mem_cons.mp h with rfl | h2
    · exact Or.inl rfl
    · exact Or.inr h2

theorem abortCtrl_inv {s : LMState} {id : Nat} (hid : id < s.next)
    (h : InvLM s) : InvLM (abortCtrl s id) := by
  obtain ⟨hnd, hdisj, hlb, hab, htb⟩ := h
  unfold abortCtrl
  split
  · exact ⟨hnd, hdisj, hlb, hab, htb⟩
  · refine ⟨hnd.erase id, ?_, ?_, ?_, ?_⟩
    · intro a ha hmem
      have ha2 := (hnd.mem_erase_iff).mp ha
      rcases List.mem_cons.mp hmem with rfl | h2
      · exact ha2.1 rfl
      · exact hdisj a ha2.2 h2
    · intro a ha
      exact hlb a (List.mem_of_mem_erase ha)
    · intro a ha
      rcases List.mem_cons.mp ha with rfl | h2
      · exact hid
      · exact hab a h2
    · intro a ha
      exact htb a (List.mem_of_mem_erase ha)

theorem foldl_abortCtrl_next :
    ∀ (l : List Nat) (s : LMState), (l.foldl abortCtrl s).next = s.next := by
  intro l
  induction l with
  | nil => intro s; rfl
  | cons hd tl ih =>
    intro s
    rw [List.foldl_cons, ih, abortCtrl_next]

theorem foldl_abortCtrl_aborted_mono :
    ∀ (l : List Nat) (s : LMState) (a : Nat), a ∈ s.aborted →
      a ∈ (l.foldl abortCtrl s).aborted := by
  intro l
  induction l with
  | nil => intro s a h; exact h
  | cons hd tl ih =>
    intro s a h
    rw [List.foldl_cons]
    exact ih _ a (abortCtrl_aborted_mono hd h)

theorem foldl_abortCtrl_mem :
    ∀ (l : List Nat) (s : LMState) (id : Nat), id ∈ l →
      id ∈ (l.foldl abortCtrl s).aborted := by
  intro l
  induction l with
  | nil => intro s id h; simp at h
  | cons hd tl ih =>
    intro s id h
    rw [List.foldl_cons]
    rcases List.mem_cons.mp h with rfl | h2
    · refine foldl_abortCtrl_aborted_mono tl _ id ?_
      unfold abortCtrl
      split
      next hmem => exact hmem
      next => exact List.mem_cons_self _ _
    · exact ih _ id h2

theorem foldl_abortCtrl_inv :
    ∀ (l : List Nat) (s : LMState), (∀ id ∈ l, id < s.next) → InvLM s →
      InvLM (l.foldl abortCtrl s) := by
  intro l
  induction l with
  | nil => intro s _ h; exact h
  | cons hd tl ih =>
    intro s hb h
    rw [List.foldl_cons]
    refine ih _ ?_ (abortCtrl_inv (hb hd (List.mem_cons_self _ _)) h)
    intro id hid
    rw [abortCtrl_next]
    exact hb id (List.mem_cons_of_mem _ hid)

theorem reach_inv {s : LMState} (hs : Reach s) : InvLM s := by
  induction hs with
  | init =>
    exact ⟨List.nodup_nil, fun a ha => absurd ha (List.not_mem_nil a),
      fun a ha => absurd ha (List.not_mem_nil a),
      fun a ha => absurd ha (List.not_mem_nil a),
      fun a ha => absurd ha (List.not_mem_nil a)⟩
  | make hr ih =>
    obtain ⟨hnd, hdisj, hlb, hab, htb⟩ := ih
    refine ⟨?_, ?_, ?_, ?_, ?_⟩
    · exact List.Nodup.cons (fun hm => Nat.lt_irrefl _ (hlb _ hm)) hnd
    · intro a ha
      rcases List.mem_cons.mp ha with rfl | h2
      · exact fun hm => Nat.lt_irrefl _ (hab _ hm)
      · exact hdisj a h2
    · intro a ha
      rcases List.mem_cons.mp ha with rfl | h2
      · exact Nat.lt_succ_self _
      · exact Nat.lt_succ_of_lt (hlb a h2)
    · intro a ha
      exact Nat.lt_succ_of_lt (hab a ha)
    · intro a ha
      rcases List.mem_cons.mp ha with rfl | h2
      · exact Nat.lt_succ_self _
      · exact Nat.lt_succ_of_lt (htb a h2)
  | timeout id hr ih =>
    unfold timeoutFire
    split
    next hmem => exact abortCtrl_inv (ih.2.2.2.2 id hmem) ih
    next => exact ih
  | @abortStep s hr ih =>
    have hfold := foldl_abortCtrl_inv s.live s
      (fun id hid => ih.2.2.1 id hid) ih
    exact ⟨List.nodup_nil, fun a ha => absurd ha (List.not_mem_nil a),
      fun a ha => absurd ha (List.not_mem_nil a),
      fun a ha => hfold.2.2.2.1 a ha, fun a ha => hfold.2.2.2.2 a ha⟩

/-! ## Claim C7 — abort() semantics and live-set discipline -/

/-- C7: from any reachable manager state, `abort()` returns the number of
live handles, cancels every one of them and clears the set; with zero
in-flight requests it returns `0` and changes nothing; aborting an
already-cancelled controller is a no-op; and a cancelled handle is out of the
live set and cannot re-enter it through any operation (creation only admits a
fresh controller, a timeout only removes, and `abort()` empties the set). -/
theorem C7_abort_lifecycle (s : LMState) (hs : Reach s) :
    (abortAll s).1 = s.live.length ∧
    (abortAll s).2.live = [] ∧
    (∀ id ∈ s.live, id ∈ (abortAll s).2.aborted) ∧
    (s.live = [] → abortAll s = (0, s)) ∧
    (∀ id ∈ s.aborted, abortCtrl s id = s) ∧
    (∀ id ∈ s.aborted,
      id ∉ s.live ∧ id ∉ (makeController s).1.live ∧
      (∀ j, id ∉ (timeoutFire s j).live) ∧ id ∉ (abortAll s).2.live) := by
  obtain ⟨hnd, hdisj, hlb, hab, htb⟩ := reach_inv hs
  refine ⟨rfl, rfl, ?_, ?_, ?_, ?_⟩
  · intro id hid
    exact foldl_abortCtrl_mem s.live s id hid
  · intro hl
    match s, hl with
    | ⟨_, ab, t, n⟩, rfl => rfl
  · intro id hid
    unfold abortCtrl
    rw [if_pos hid]
  · intro id hid
    have hnin : id ∉ s.live := fun hl => hdisj id hl hid
    refine ⟨hnin, ?_, ?_, ?_⟩
    · intro hmem
      rcases List.mem_cons.mp hmem with heq | h2
      · exact Nat.lt_irrefl _ (heq ▸ hab id hid)
      · exact hnin h2
    · intro j hmem
      unfold timeoutFire at hmem
      split at hmem
      · exact hnin (abortCtrl_live_sub hmem)
      · exact hnin hmem
    · intro hmem
      exact List.not_mem_nil id hmem

/-- The state with one live tracked controller, for the C7 witness. -/
def demoLM : LMState := (makeController initLM).1

/-- Witness for C7: with one live request, `abort()` reports one cancelled
handle, clears the set, and marks the handle aborted. -/
theorem C7_witness :
    (abortAll demoLM).1 = 1 ∧ (abortAll demoLM).2.live = [] ∧
    0 ∈ (abortAll demoLM).2.aborted := by
  have h := C7_abort_lifecycle demoLM (Reach.make Reach.init)
  exact ⟨h.1, h.2.1, h.2.2.1 0 (List.mem_cons_self 0 [])⟩

/-! ## Message shaping (`_toOpenAIMessage`, `_buildAnthropicMessages`,
`_chatGemini`) -/

inductive Role where
  | system
  | user
  | assistant
  deriving DecidableEq, Repr

structure Msg where
  role : Role
  content : String
  image : Option String
  deriving DecidableEq, Repr

/-- `image.replace(/^data:image\/\w+;base64,/, '')`: strip one anchored
data-URL header if present. -/
def stripDataUrl (s : String) : String :=
  match dropLit "data:image/".toList s.toList with
  | none => s
  | some r =>
    if r.takeWhile (fun c => isWordChar c) = [] then s
    else
      match dropLit ";base64,".toList (r.dropWhile (fun c => isWordChar c)) with
      | none => s
      | some r2 => ⟨r2⟩

/-- OpenAI-compatible message content: a plain string, or a two-part array
of one text part and one image part. -/
inductive OAContent where
  | plain (text : String)
  | withImage (text : String) (imageUrl : String)
  deriving DecidableEq, Repr

structure OAMsg where
  role : Role
  content : OAContent
  deriving DecidableEq, Repr

/-- `_toOpenAIMessage`. -/
def toOpenAIMessage (m : Msg) : OAMsg :=
  match m.image with
  | some img => ⟨m.role, OAContent.withImage m.content img⟩
  | none => ⟨m.role, OAContent.plain m.content⟩

def oaText : OAMsg → String
  | ⟨_, .plain t⟩ => t
  | ⟨_, .withImage t _⟩ => t

def oaImageCount : OAMsg → Nat
  | ⟨_, .plain _⟩ => 0
  | ⟨_, .withImage _ _⟩ => 1

/-- Anthropic message content: a plain string, or an image block followed by
a text block. -/
inductive AContent where
  | plain (text : String)
  | withImage (base64 : String) (text : String)
  deriving DecidableEq, Repr

structure AMsg where
  role : Role
  content : AContent
  deriving DecidableEq, Repr

def aText : AMsg → String
  | ⟨_, .plain t⟩ => t
  | ⟨_, .withImage _ t⟩ => t

def aImageCount : AMsg → Nat
  | ⟨_, .plain _⟩ => 0
  | ⟨_, .withImage _ _⟩ => 1

/-- The non-system message entry `_buildAnthropicMessages` pushes. -/
def aMsgOf (m : Msg) : AMsg :=
  match m.image with
  | some img => ⟨m.role, AContent.withImage (stripDataUrl img) m.content⟩
  | none => ⟨m.role, AContent.plain m.content⟩

structure AnthropicBuilt where
  system : String
  messages : List AMsg
  deriving DecidableEq, Repr

/-- The loop of `_buildAnthropicMessages`; `sys = ""` models the initial
`null` (both falsy in `systemContent ? … : ''`). -/
def buildAnthropicGo (sys : String) (out : List AMsg) :
    List Msg → String × List AMsg
  | [] => (sys, out)
  | m :: rest =>
    match m.role with
    | Role.system =>
      buildAnthropicGo ((if sys = "" then "" else sys ++ "\n") ++ m.content)
        out rest
    | _ => buildAnthropicGo sys (out ++ [aMsgOf m]) rest

/-- `_buildAnthropicMessages`. -/
def buildAnthropicMessages (msgs : List Msg) : AnthropicBuilt :=
  let st := buildAnthropicGo "" [] msgs
  ⟨st.1, st.2⟩

/-- Gemini turn roles: the generic `assistant` is renamed to `model`,
everything else becomes `user`. -/
inductive GRole where
  | user
  | model
  deriving DecidableEq, Repr

/-- One entry of the Gemini `contents` array: a text part and at most one
inline-data part. -/
structure GContent where
  role : GRole
  text : String
  inline : Option String
  deriving DecidableEq, Repr

structure GeminiBody where
  contents : List GContent
  systemInstruction : Option String
  deriving DecidableEq, Repr

/-- The non-system entry `_chatGemini` pushes (role remap plus
`_toGeminiParts`). -/
def gContentOf (m : Msg) : GContent :=
  ⟨if m.role = Role.assistant then GRole.model else GRole.user,
    m.content, m.image.map stripDataUrl⟩

/-- The message loop of `_chatGemini`: a system message overwrites the single
`systemInstruction` variable. -/
def geminiGo (si : Option String) (out : List GContent) :
    List Msg → Option String × List GContent
  | [] => (si, out)
  | m :: rest =>
    match m.role with
    | Role.system => geminiGo (some m.content) out rest
    | _ => geminiGo si (out ++ [gContentOf m]) rest

/-- The body `_chatGemini` sends: `body.systemInstruction` is only set when
the variable is truthy (non-empty). -/
def geminiShape (msgs : List Msg) : GeminiBody :=
  let st := geminiGo none [] msgs
  ⟨st.2,
    match st.1 with
    | some si => if si = "" then none else some si
    | none => none⟩

/-- All text a Gemini request body carries. -/
def geminiTexts (b : GeminiBody) : List String :=
  (match b.systemInstruction with
   | some s => [s]
   | none => []) ++ b.contents.map (fun gc => gc.text)

/-- The system texts of a message list, in order. -/
def sysTexts (msgs : List Msg) : List String :=
  (msgs.filter (fun m => m.role = Role.system)).map (fun m => m.content)

/-- The spec's join of the system texts with newlines (its own words:
system messages are concatenated, none dropped). -/
def specSysJoin : List String → String
  | [] => ""
  | c :: rest => rest.foldl (fun acc x => acc ++ "\n" ++ x) c

theorem specSysJoin_cons_cons (a b : String) (l : List String) :
    specSysJoin (a :: b :: l) = specSysJoin ((a ++ "\n" ++ b) :: l) := rfl

theorem ne_empty_append_newline (a b : String) : a ++ "\n" ++ b ≠ "" := by
  intro h
  have hlen := congrArg String.length h
  rw [String.length_append, String.length_append] at hlen
  have h1 : ("\n" : String).length = 1 := rfl
  have h0 : ("" : String).length = 0 := rfl
  omega

theorem buildAnthropicGo_msgs :
    ∀ (msgs : List Msg) (sys : String) (out : List AMsg),
      (buildAnthropicGo sys out msgs).2
        = out ++ (msgs.filter (fun m => ¬ m.role = Role.system)).map aMsgOf := by
  intro msgs
  induction msgs with
  | nil => intro sys out; simp [buildAnthropicGo]
  | cons m rest ih =>
    intro sys out
    cases hr : m.role <;>
      simp only [buildAnthropicGo, hr, List.filter_cons] <;>
      simp [hr, ih]

theorem buildAnthropicGo_sys :
    ∀ (msgs : List Msg) (sys : String) (out : List AMsg),
      (∀ t ∈ sysTexts msgs, t ≠ "") →
      (buildAnthropicGo sys out msgs).1
        = if sys = "" then specSysJoin (sysTexts msgs)
          else specSysJoin (sys :: sysTexts msgs) := by
  intro msgs
  induction msgs with
  | nil =>
    intro sys out _
    by_cases hs : sys = "" <;> simp [buildAnthropicGo, sysTexts, specSysJoin, hs]
  | cons m rest ih =>
    intro sys out hne
    have hrest : ∀ t ∈ sysTexts rest, t ≠ "" := by
      intro t ht
      exact hne t (by
        unfold sysTexts at ht ⊢
        rw [List.filter_cons]
        split
        · exact List.mem_cons_of_mem _ (by simpa [sysTexts] using ht)
        · simpa [sysTexts] using ht)
    cases hr : m.role
    case system =>
      have hc : m.content ≠ "" := by
        refine hne m.content ?_
        unfold sysTexts
        rw [List.filter_cons, if_pos (by simp [hr])]
        simp
      have hst : sysTexts (m :: rest) = m.content :: sysTexts rest := by
        unfold sysTexts
        rw [List.filter_cons, if_pos (by simp [hr])]
        rfl
      rw [hst]
      by_cases hs : sys = ""
      · subst hs
        have hstep : buildAnthropicGo "" out (m :: rest)
            = buildAnthropicGo m.content out rest := by
          simp [buildAnthropicGo, hr]
        rw [hstep, ih m.content out hrest, if_neg hc, if_pos rfl]
      · have hstep : buildAnthropicGo sys out (m :: rest)
            = buildAnthropicGo (sys ++ "\n" ++ m.content) out rest := by
          simp [buildAnthropicGo, hr, hs]
        rw [hstep, ih _ out hrest,
          if_neg (ne_empty_append_newline sys m.content), if_neg hs,
          ← specSysJoin_cons_cons]
    case user =>
      have hst : sysTexts (m :: rest) = sysTexts rest := by
        unfold sysTexts
        rw [List.filter_cons, if_neg (by simp [hr])]
      simp only [buildAnthropicGo, hr]
      rw [ih sys _ hrest, hst]
    case assistant =>
      have hst : sysTexts (m :: rest) = sysTexts rest := by
        unfold sysTexts
        rw [List.filter_cons, if_neg (by simp [hr])]
      simp only [buildAnthropicGo, hr]
      rw [ih sys _ hrest, hst]

theorem geminiGo_contents :
    ∀ (msgs : List Msg) (si : Option String) (out : List GContent),
      (geminiGo si out msgs).2
        = out ++ (msgs.filter (fun m => ¬ m.role = Role.system)).map gContentOf := by
  intro msgs
  induction msgs with
  | nil => intro si out; simp [geminiGo]
  | cons m rest ih =>
    intro si out
    cases hr : m.role <;>
      simp only [geminiGo, hr, List.filter_cons] <;>
      simp [hr, ih]

theorem geminiGo_si :
    ∀ (msgs : List Msg) (si : Option String) (out : List GContent),
      (geminiGo si out msgs).1
        = match (sysTexts msgs).getLast? with
          | some t => some t
          | none => si := by
  intro msgs
  induction msgs with
  | nil => intro si out; simp [geminiGo, sysTexts]
  | cons m rest ih =>
    intro si out
    cases hr : m.role
    case system =>
      have hst : sysTexts (m :: rest) = m.content :: sysTexts rest := by
        unfold sysTexts
        rw [List.filter_cons, if_pos (by simp [hr])]
        rfl
      rw [hst]
      simp only [geminiGo, hr]
      rw [ih (some m.content) out]
      cases hrest : sysTexts rest with
      | nil => rfl
      | cons r0 rs =>
        rw [List.getLast?_cons_cons]
        cases hg : (r0 :: rs).getLast? with
        | some t => rfl
        | none => exact absurd (List.getLast?_eq_none_iff.mp hg) (by simp)
    case user =>
      have hst : sysTexts (m :: rest) = sysTexts rest := by
        unfold sysTexts
        rw [List.filter_cons, if_neg (by simp [hr])]
      simp only [geminiGo, hr]
      rw [ih si _, hst]
    case assistant =>
      have hst : sysTexts (m :: rest) = sysTexts rest := by
        unfold sysTexts
        rw [List.filter_cons, if_neg (by simp [hr])]
      simp only [geminiGo, hr]
      rw [ih si _, hst]

/-! ## Claim C8 — shaping losslessness -/

/-- C8 counterexample: with two system messages, the Gemini shaping keeps
only the last system text — the first system message's text "A" is dropped
from the request body, so the shaping is not lossless. -/
theorem C8_counterexample :
    geminiTexts (geminiShape
      [⟨Role.system, "A", none⟩, ⟨Role.system, "B", none⟩,
       ⟨Role.user, "hi", none⟩]) = ["B", "hi"] ∧
    "A" ∉ geminiTexts (geminiShape
      [⟨Role.system, "A", none⟩, ⟨Role.system, "B", none⟩,
       ⟨Role.user, "hi", none⟩]) := by
  constructor
  · rfl
  · intro hmem
    have heq : geminiTexts (geminiShape
        [⟨Role.system, "A", none⟩, ⟨Role.system, "B", none⟩,
         ⟨Role.user, "hi", none⟩]) = ["B", "hi"] := rfl
    rw [heq] at hmem
    exact absurd hmem (by decide)

/-- C8 (amended): the OpenAI-compatible and Anthropic shapings are lossless —
every message's text is preserved in order, Anthropic concatenates all system
texts (none dropped, given non-empty system texts), roles are preserved, and
at most one image accompanies a message.  The Gemini ("contents"-array)
shaping preserves all non-system texts in order and renames `assistant` to its
`model` turn role with the system instruction in a dedicated field, but keeps
only the LAST system message's text (and omits the field when that text is
empty): earlier system texts are dropped. -/
theorem C8_shaping (msgs : List Msg) (m : Msg)
    (hsys : ∀ t ∈ sysTexts msgs, t ≠ "") :
    (oaText (toOpenAIMessage m) = m.content ∧
      (toOpenAIMessage m).role = m.role ∧
      oaImageCount (toOpenAIMessage m) = (if m.image.isSome then 1 else 0)) ∧
    ((buildAnthropicMessages msgs).messages.map aText
        = (msgs.filter (fun x => ¬ x.role = Role.system)).map
            (fun x => x.content) ∧
      (buildAnthropicMessages msgs).messages.map (fun am => am.role)
        = (msgs.filter (fun x => ¬ x.role = Role.system)).map
            (fun x => x.role) ∧
      (∀ am ∈ (buildAnthropicMessages msgs).messages, aImageCount am ≤ 1) ∧
      (buildAnthropicMessages msgs).system = specSysJoin (sysTexts msgs)) ∧
    ((geminiShape msgs).contents.map (fun gc => gc.text)
        = (msgs.filter (fun x => ¬ x.role = Role.system)).map
            (fun x => x.content) ∧
      (geminiShape msgs).contents.map (fun gc => gc.role)
        = (msgs.filter (fun x => ¬ x.role = Role.system)).map
            (fun x => if x.role = Role.assistant then GRole.model
                      else GRole.user) ∧
      (geminiShape msgs).systemInstruction =
        (match (sysTexts msgs).getLast? with
         | some t => if t = "" then none else some t
         | none => none)) := by
  refine ⟨⟨?_, ?_, ?_⟩, ⟨?_, ?_, ?_, ?_⟩, ⟨?_, ?_, ?_⟩⟩
  · unfold toOpenAIMessage oaText
    cases m.image <;> rfl
  · unfold toOpenAIMessage
    cases m.image <;> rfl
  · unfold toOpenAIMessage oaImageCount
    cases m.image <;> rfl
  · show (buildAnthropicGo "" [] msgs).2.map aText = _
    rw [buildAnthropicGo_msgs msgs "" []]
    rw [List.nil_append, List.map_map]
    congr 1
    funext x
    cases x with
    | mk role content image => cases image <;> rfl
  · show (buildAnthropicGo "" [] msgs).2.map _ = _
    rw [buildAnthropicGo_msgs msgs "" []]
    rw [List.nil_append, List.map_map]
    congr 1
    funext x
    cases x with
    | mk role content image => cases image <;> rfl
  · intro am ham
    unfold aImageCount
    cases am with
    | mk role content => cases content <;> simp
  · show (buildAnthropicGo "" [] msgs).1 = _
    rw [buildAnthropicGo_sys msgs "" [] hsys, if_pos rfl]
  · show (geminiGo none [] msgs).2.map _ = _
    rw [geminiGo_contents msgs none []]
    rw [List.nil_append, List.map_map]
    rfl
  · show (geminiGo none [] msgs).2.map _ = _
    rw [geminiGo_contents msgs none []]
    rw [List.nil_append, List.map_map]
    rfl
  · show (match (geminiGo none [] msgs).1 with
          | some si => if si = "" then none else some si
          | none => none) = _
    rw [geminiGo_si msgs none []]
    cases (sysTexts msgs).getLast? <;> rfl

/-- Message list with two system turns and an image turn, for the C8
witness. -/
def demoMsgs : List Msg :=
  [⟨Role.system, "S1", none⟩, ⟨Role.system, "S2", none⟩,
   ⟨Role.user, "hi", some "data:image/png;base64,Zm9v"⟩,
   ⟨Role.assistant, "ok", none⟩]

/-- Witness for C8: both system texts survive the Anthropic shaping, and the
Gemini shaping keeps the last one. -/
theorem C8_witness :
    (buildAnthropicMessages demoMsgs).system = specSysJoin (sysTexts demoMsgs) ∧
    (geminiShape demoMsgs).systemInstruction = some "S2" := by
  have h := C8_shaping demoMsgs ⟨Role.user, "q", none⟩ (by decide)
  refine ⟨h.2.1.2.2.2, ?_⟩
  rw [h.2.2.2.2]
  rfl

/-! ## A model of `JSON.parse` for the stream decoders

JavaScript values navigated by the per-line stream handlers.  `jsUndefined` models
`undefined`, produced by optional chaining on absent fields; the parser never
produces it. -/

inductive Json where
  | null
  | jsUndefined
  | bool (b : Bool)
  | num (raw : String)
  | str (s : String)
  | arr (elems : List Json)
  | obj (fields : List (String × Json))

/-- JSON whitespace. -/
def isJWs (c : Char) : Bool :=
  c = ' ' || c = '\t' || c = '\n' || c = '\r'

def skipJWs (cs : List Char) : List Char :=
  cs.dropWhile (fun c => isJWs c)

def hexVal (c : Char) : Option Nat :=
  if '0' ≤ c ∧ c ≤ '9' then some (c.toNat - 48)
  else if 'a' ≤ c ∧ c ≤ 'f' then some (c.toNat - 87)
  else if 'A' ≤ c ∧ c ≤ 'F' then some (c.toNat - 55)
  else none

/-- JSON string body parser (after the opening quote), handling the JSON
escapes. -/
def parseJStr (acc : List Char) : List Char → Option (String × List Char)
  | '"' :: rest => some (⟨acc.reverse⟩, rest)
  | '\\' :: 'u' :: h1 :: h2 :: h3 :: h4 :: rest =>
    match hexVal h1, hexVal h2, hexVal h3, hexVal h4 with
    | some a, some b, some c, some d =>
      parseJStr (Char.ofNat (((a * 16 + b) * 16 + c) * 16 + d) :: acc) rest
    | _, _, _, _ => none
  | '\\' :: e :: rest =>
    match e with
    | '"' => parseJStr ('"' :: acc) rest
    | '\\' => parseJStr ('\\' :: acc) rest
    | '/' => parseJStr ('/' :: acc) rest
    | 'b' => parseJStr ('\x08' :: acc) rest
    | 'f' => parseJStr ('\x0c' :: acc) rest
    | 'n' => parseJStr ('\n' :: acc) rest
    | 'r' => parseJStr ('\r' :: acc) rest
    | 't' => parseJStr ('\t' :: acc) rest
    | _ => none
  | c :: rest => parseJStr (c :: acc) rest
  | [] => none

/-- JSON number parser: sign, integer digits, optional fraction and
exponent, each optional part consumed only when complete. -/
def parseJNum (cs : List Char) : Option (String × List Char) :=
  let (sign, r1) : List Char × List Char :=
    match cs with
    | '-' :: r => (['-'], r)
    | _ => ([], cs)
  let ds := r1.takeWhile (fun c => c.isDigit)
  if ds = [] then none
  else
    let r2 := r1.dropWhile (fun c => c.isDigit)
    let (frac, r3) : List Char × List Char :=
      match r2 with
      | '.' :: r =>
        let fs := r.takeWhile (fun c => c.isDigit)
        if fs = [] then ([], r2)
        else ('.' :: fs, r.dropWhile (fun c => c.isDigit))
      | _ => ([], r2)
    let (ex, r4) : List Char × List Char :=
      match r3 with
      | e :: r =>
        if e = 'e' ∨ e = 'E' then
          let (es, r') : List Char × List Char :=
            match r with
            | s :: r'' => if s = '+' ∨ s = '-' then ([s], r'') else ([], r)
            | [] => ([], r)
          let xs := r'.takeWhile (fun c => c.isDigit)
          if xs = [] then ([], r3)
          else (e :: es ++ xs, r'.dropWhile (fun c => c.isDigit))
        else ([], r3)
      | [] => ([], r3)
    some (⟨sign ++ ds ++ frac ++ ex⟩, r4)

mutual

/-- JSON value parser; the fuel dominates the input length, and every
recursive call is made after consuming at least one character. -/
def parseJVal : Nat → List Char → Option (Json × List Char)
  | 0, _ => none
  | fuel + 1, cs =>
    match skipJWs cs with
    | '{' :: rest =>
      (match skipJWs rest with
       | '}' :: r2 => some (Json.obj [], r2)
       | _ => parseJFields fuel rest [])
    | '[' :: rest =>
      (match skipJWs rest with
       | ']' :: r2 => some (Json.arr [], r2)
       | _ => parseJElems fuel rest [])
    | '"' :: rest => (parseJStr [] rest).map (fun p => (Json.str p.1, p.2))
    | 't' :: 'r' :: 'u' :: 'e' :: r => some (Json.bool true, r)
    | 'f' :: 'a' :: 'l' :: 's' :: 'e' :: r => some (Json.bool false, r)
    | 'n' :: 'u' :: 'l' :: 'l' :: r => some (Json.null, r)
    | other => (parseJNum other).map (fun p => (Json.num p.1, p.2))

/-- Object members after `{` (not immediately `}`). -/
def parseJFields : Nat → List Char → List (String × Json) →
    Option (Json × List Char)
  | 0, _, _ => none
  | fuel + 1, cs, acc =>
    match skipJWs cs with
    | '"' :: rest =>
      (match parseJStr [] rest with
       | none => none
       | some (key, r2) =>
         match skipJWs r2 with
         | ':' :: r3 =>
           (match parseJVal fuel r3 with
            | none => none
            | some (v, r4) =>
              match skipJWs r4 with
              | ',' :: r5 => parseJFields fuel r5 (acc ++ [(key, v)])
              | '}' :: r5 => some (Json.obj (acc ++ [(key, v)]), r5)
              | _ => none)
         | _ => none)
    | _ => none

/-- Array elements after `[` (not immediately `]`). -/
def parseJElems : Nat → List Char → List Json → Option (Json × List Char)
  | 0, _, _ => none
  | fuel + 1, cs, acc =>
    match parseJVal fuel cs with
    | none => none
    | some (v, r1) =>
      match skipJWs r1 with
      | ',' :: r2 => parseJElems fuel r2 (acc ++ [v])
      | ']' :: r2 => some (Json.arr (acc ++ [v]), r2)
      | _ => none

end

/-- `JSON.parse`: a full-string parse (trailing whitespace allowed). -/
def jsonParse (cs : List Char) : Option Json :=
  match parseJVal (cs.length + 1) cs with
  | some (v, rest) => if skipJWs rest = [] then some v else none
  | none => none

/-- Property access `j.f` / optional chain `j?.f`: `jsUndefined` on anything that
is not an object with the field. -/
def jget (j : Json) (f : String) : Json :=
  match j with
  | .obj fields =>
    match fields.lookup f with
    | some v => v
    | none => .jsUndefined
  | _ => .jsUndefined

/-- Index access `j?.[0]`. -/
def jidx (j : Json) (i : Nat) : Json :=
  match j with
  | .arr elems =>
    match elems.get? i with
    | some v => v
    | none => .jsUndefined
  | _ => .jsUndefined

/-- Is the numeric literal zero (mantissa has no non-zero digit)? -/
def jnumIsZero (raw : String) : Bool :=
  (raw.toList.takeWhile (fun c => ¬ (c = 'e' ∨ c = 'E'))).all
    (fun c => ¬ ('1' ≤ c ∧ c ≤ '9'))

/-- JavaScript truthiness of the values our handlers test. -/
def jsTruthy : Json → Bool
  | .null => false
  | .jsUndefined => false
  | .bool b => b
  | .num raw => ¬ jnumIsZero raw
  | .str s => ¬ s = ""
  | .arr _ => true
  | .obj _ => true

/-! ## Stream decoders (`_streamOpenAICompatible`, `_streamAnthropic`,
`_streamGemini`, `_streamOllama`)

All four share verbatim the same read loop — buffer the reads, split on
newlines, keep the dangling last piece, process each complete line — and
differ only in the per-line handler; `streamGo` is that common loop and the
handlers below are the four loop bodies.  `onChunk` payloads are the `Json`
values the handlers pass. -/

/-- Events delivered to the `chatStream` callbacks. -/
inductive Ev where
  | chunk (payload : Json)
  | done
  | error (msg : String)

/-- Value comparison `j === 'lit'` against a string literal. -/
def jIsStr (j : Json) (s : String) : Bool :=
  match j with
  | .str t => t = s
  | _ => false

/-- What one line contributes: chunk events and whether the loop returned
after `onDone()`. -/
structure HOut where
  evs : List Ev
  stop : Bool

/-- Line body of `_streamOpenAICompatible`: skip blank and non-`data: `
lines, stop on the `[DONE]` sentinel, skip unparseable JSON, emit
`choices[0].delta.content` when truthy. -/
def handleOpenAILine (line : List Char) : HOut :=
  let t := trimChars line
  if t = [] then ⟨[], false⟩
  else
    match dropLit "data: ".toList t with
    | none => ⟨[], false⟩
    | some d =>
      if d = "[DONE]".toList then ⟨[], true⟩
      else
        match jsonParse d with
        | none => ⟨[], false⟩
        | some j =>
          let content := jget (jget (jidx (jget j "choices") 0) "delta")
            "content"
          if jsTruthy content then ⟨[Ev.chunk content], false⟩
          else ⟨[], false⟩

/-- Line body of `_streamAnthropic`: typed envelopes; a
`content_block_delta`/`text_delta` yields `delta.text`, a `message_stop`
ends the stream. -/
def handleAnthropicLine (line : List Char) : HOut :=
  let t := trimChars line
  if t = [] then ⟨[], false⟩
  else
    match dropLit "data: ".toList t with
    | none => ⟨[], false⟩
    | some d =>
      match jsonParse d with
      | none => ⟨[], false⟩
      | some j =>
        ⟨if jIsStr (jget j "type") "content_block_delta" &&
            jIsStr (jget (jget j "delta") "type") "text_delta" then
           [Ev.chunk (jget (jget j "delta") "text")]
         else [],
         jIsStr (jget j "type") "message_stop"⟩

/-- Line body of `_streamGemini`: `data:` lines whose
`candidates[0].content.parts[0].text` is truthy emit text; no in-band stop. -/
def handleGeminiLine (line : List Char) : HOut :=
  let t := trimChars line
  if t = [] then ⟨[], false⟩
  else
    match dropLit "data: ".toList t with
    | none => ⟨[], false⟩
    | some d =>
      match jsonParse d with
      | none => ⟨[], false⟩
      | some j =>
        let text := jget (jidx (jget (jget (jidx (jget j "candidates") 0)
          "content") "parts") 0) "text"
        if jsTruthy text then ⟨[Ev.chunk text], false⟩ else ⟨[], false⟩

/-- Line body of `_streamOllama`: bare JSON lines; `message.content` emits,
a truthy `done` ends the stream; the same line can do both. -/
def handleOllamaLine (line : List Char) : HOut :=
  if trimChars line = [] then ⟨[], false⟩
  else
    match jsonParse line with
    | none => ⟨[], false⟩
    | some j =>
      ⟨if jsTruthy (jget (jget j "message") "content") then
         [Ev.chunk (jget (jget j "message") "content")]
       else [],
       jsTruthy (jget j "done")⟩

/-- How the reader ends after delivering its chunks: a clean end-of-stream,
or a read rejection (for example an abort). -/
inductive EndKind where
  | readDone
  | readErr (msg : String)

/-- The `for (const line of lines)` body with its early `return`:
events of the processed lines, and whether the loop stopped. -/
def runLines (h : List Char → HOut) : List (List Char) → List Ev × Bool
  | [] => ([], false)
  | l :: ls =>
    let o := h l
    if o.stop then (o.evs ++ [Ev.done], true)
    else
      let r := runLines h ls
      (o.evs ++ r.1, r.2)

/-- The shared `while (true) { read; buffer += …; split; pop; for … }` loop:
on a clean end the trailing buffer is dropped and `onDone` fires; a read
error reaches the catch clause and fires `onError`. -/
def streamGo (h : List Char → HOut) (buf : List Char) :
    List (List Char) → EndKind → List Ev
  | [], ek =>
    (match ek with
     | .readDone => [Ev.done]
     | .readErr m => [Ev.error m])
  | chunkBytes :: rest, ek =>
    let parts := splitLines (buf ++ chunkBytes)
    let r := runLines h parts.dropLast
    if r.2 then r.1
    else r.1 ++ streamGo h (parts.getLastD []) rest ek

/-- Behavior of one streaming HTTP exchange. -/
inductive StreamBehavior where
  | fetchErr (msg : String)
  | httpErr (status : Nat) (body : String)
  | body (chunks : List (List Char)) (ek : EndKind)

/-- `_enrichFetchError`: rewrite connection failures against a local
provider into actionable text; pass everything else through.  (The
`err.cause` code checks are modelled by the `fetch failed` message.) -/
def enrichMsg (p : Provider) (m : String) : String :=
  if isLocalProvider p ∧ m = "fetch failed" then
    "Cannot connect to " ++ p.name ++ " at " ++ p.baseUrl ++
      ". Please start " ++
      (if p.name = "lmstudio" then
        "LM Studio (open LM Studio → Local Server tab → Start Server)"
       else "Ollama (run: ollama serve)") ++ " and try again."
  else m

/-- `_streamOpenAICompatible`: fetch errors are enriched then caught by the
outer try, HTTP errors are thrown then caught, and the body runs the loop. -/
def streamOpenAICompatible (p : Provider) (beh : StreamBehavior) : List Ev :=
  match beh with
  | .fetchErr m => [Ev.error (enrichMsg p m)]
  | .httpErr status body =>
    [Ev.error (p.name ++ " API error (" ++ toString status ++ "): " ++ body)]
  | .body chunks ek => streamGo handleOpenAILine [] chunks ek

/-- `_streamAnthropic` (no fetch-error enrichment). -/
def streamAnthropic (p : Provider) (beh : StreamBehavior) : List Ev :=
  match beh with
  | .fetchErr m => [Ev.error m]
  | .httpErr status body =>
    [Ev.error ("Anthropic API error (" ++ toString status ++ "): " ++ body)]
  | .body chunks ek => streamGo handleAnthropicLine [] chunks ek

/-- `_streamGemini` (no fetch-error enrichment). -/
def streamGemini (p : Provider) (beh : StreamBehavior) : List Ev :=
  match beh with
  | .fetchErr m => [Ev.error m]
  | .httpErr status body =>
    [Ev.error ("Gemini API error (" ++ toString status ++ "): " ++ body)]
  | .body chunks ek => streamGo handleGeminiLine [] chunks ek

/-- `_streamOllama` (fetch errors run through `_enrichFetchError`). -/
def streamOllama (p : Provider) (beh : StreamBehavior) : List Ev :=
  match beh with
  | .fetchErr m => [Ev.error (enrichMsg p m)]
  | .httpErr status body =>
    [Ev.error ("Ollama API error (" ++ toString status ++ "): " ++ body)]
  | .body chunks ek => streamGo handleOllamaLine [] chunks ek

/-- `chatStream`: validate (the outer catch turns a validation throw into a
single `onError`), then dispatch on the provider name. -/
def chatStream (p : Provider) (beh : StreamBehavior) : List Ev :=
  match validateProvider p with
  | some msg => [Ev.error msg]
  | none =>
    match streamPathFor p.name with
    | .gemini => streamGemini p beh
    | .anthropic => streamAnthropic p beh
    | .ollama => streamOllama p beh
    | .openaiCompatible => streamOpenAICompatible p beh

/-! ## Claim C4 — callback discipline of chatStream -/

/-- Lists whose members are all chunk events are chunk-mapped lists. -/
theorem evs_all_chunks {evs : List Ev}
    (h : ∀ e ∈ evs, ∃ j, e = Ev.chunk j) :
    ∃ cs : List Json, evs = cs.map Ev.chunk := by
  induction evs with
  | nil => exact ⟨[], rfl⟩
  | cons e rest ih =>
    obtain ⟨j, hj⟩ := h e (List.mem_cons_self _ _)
    obtain ⟨cs, hcs⟩ := ih (fun x hx => h x (List.mem_cons_of_mem _ hx))
    exact ⟨j :: cs, by rw [hj, hcs]; rfl⟩

/-- Shape of one handler output: empty events or a single chunk. -/
def HShaped (h : List Char → HOut) : Prop :=
  ∀ l : List Char, (∃ b, h l = ⟨[], b⟩) ∨ ∃ j b, h l = ⟨[Ev.chunk j], b⟩

theorem handleOpenAILine_shaped : HShaped handleOpenAILine := by
  intro l
  simp only [handleOpenAILine]
  split
  · exact Or.inl ⟨_, rfl⟩
  split
  · exact Or.inl ⟨_, rfl⟩
  split
  · exact Or.inl ⟨_, rfl⟩
  split
  · exact Or.inl ⟨_, rfl⟩
  split
  · exact Or.inr ⟨_, _, rfl⟩
  · exact Or.inl ⟨_, rfl⟩

theorem handleAnthropicLine_shaped : HShaped handleAnthropicLine := by
  intro l
  simp only [handleAnthropicLine]
  split
  · exact Or.inl ⟨_, rfl⟩
  split
  · exact Or.inl ⟨_, rfl⟩
  split
  · exact Or.inl ⟨_, rfl⟩
  split
  · exact Or.inr ⟨_, _, rfl⟩
  · exact Or.inl ⟨_, rfl⟩

theorem handleGeminiLine_shaped : HShaped handleGeminiLine := by
  intro l
  simp only [handleGeminiLine]
  split
  · exact Or.inl ⟨_, rfl⟩
  split
  · exact Or.inl ⟨_, rfl⟩
  split
  · exact Or.inl ⟨_, rfl⟩
  split
  · exact Or.inr ⟨_, _, rfl⟩
  · exact Or.inl ⟨_, rfl⟩

theorem handleOllamaLine_shaped : HShaped handleOllamaLine := by
  intro l
  simp only [handleOllamaLine]
  split
  · exact Or.inl ⟨_, rfl⟩
  split
  · exact Or.inl ⟨_, rfl⟩
  split
  · exact Or.inr ⟨_, _, rfl⟩
  · exact Or.inl ⟨_, rfl⟩

theorem shaped_chunks {h : List Char → HOut} (hs : HShaped h) :
    ∀ (l : List Char), ∀ e ∈ (h l).evs, ∃ j, e = Ev.chunk j := by
  intro l e he
  rcases hs l with ⟨b, hb⟩ | ⟨j, b, hb⟩ <;> rw [hb] at he
  · exact absurd he (List.not_mem_nil e)
  · exact ⟨j, List.mem_singleton.mp he⟩

theorem handleOpenAILine_chunks :
    ∀ (l : List Char), ∀ e ∈ (handleOpenAILine l).evs, ∃ j, e = Ev.chunk j :=
  shaped_chunks handleOpenAILine_shaped

theorem handleAnthropicLine_chunks :
    ∀ (l : List Char), ∀ e ∈ (handleAnthropicLine l).evs,
      ∃ j, e = Ev.chunk j :=
  shaped_chunks handleAnthropicLine_shaped

theorem handleGeminiLine_chunks :
    ∀ (l : List Char), ∀ e ∈ (handleGeminiLine l).evs, ∃ j, e = Ev.chunk j :=
  shaped_chunks handleGeminiLine_shaped

theorem handleOllamaLine_chunks :
    ∀ (l : List Char), ∀ e ∈ (handleOllamaLine l).evs, ∃ j, e = Ev.chunk j :=
  shaped_chunks handleOllamaLine_shaped

/-- The line loop emits chunk events and, exactly when it stopped, one final
done event. -/
theorem runLines_shape (h : List Char → HOut)
    (hh : ∀ l, ∀ e ∈ (h l).evs, ∃ j, e = Ev.chunk j) :
    ∀ ls : List (List Char), ∃ cs : List Json,
      (runLines h ls).1 = cs.map Ev.chunk ++
        (if (runLines h ls).2 then [Ev.done] else []) := by
  intro ls
  induction ls with
  | nil => exact ⟨[], rfl⟩
  | cons l rest ih =>
    obtain ⟨cs0, hcs0⟩ := evs_all_chunks (hh l)
    rw [runLines]
    by_cases hstop : (h l).stop
    · rw [if_pos hstop]
      exact ⟨cs0, by rw [hcs0]; simp⟩
    · rw [if_neg hstop]
      obtain ⟨cs1, hcs1⟩ := ih
      refine ⟨cs0 ++ cs1, ?_⟩
      simp only [List.map_append, List.append_assoc]
      rw [hcs0, hcs1]

/-- The read loop emits chunk events followed by exactly one terminal
event (done or error), and nothing after it. -/
theorem streamGo_shape (h : List Char → HOut)
    (hh : ∀ l, ∀ e ∈ (h l).evs, ∃ j, e = Ev.chunk j) :
    ∀ (chunks : List (List Char)) (buf : List Char) (ek : EndKind),
      ∃ (cs : List Json) (t : Ev),
        (t = Ev.done ∨ ∃ m, t = Ev.error m) ∧
        streamGo h buf chunks ek = cs.map Ev.chunk ++ [t] := by
  intro chunks
  induction chunks with
  | nil =>
    intro buf ek
    match ek with
    | .readDone => exact ⟨[], Ev.done, Or.inl rfl, rfl⟩
    | .readErr m => exact ⟨[], Ev.error m, Or.inr ⟨m, rfl⟩, rfl⟩
  | cons c rest ih =>
    intro buf ek
    rw [streamGo]
    obtain ⟨cs0, hcs0⟩ := runLines_shape h hh
      ((splitLines (buf ++ c)).dropLast)
    by_cases hstop : (runLines h ((splitLines (buf ++ c)).dropLast)).2
    · rw [if_pos hstop]
      rw [if_pos hstop] at hcs0
      exact ⟨cs0, Ev.done, Or.inl rfl, hcs0⟩
    · rw [if_neg hstop]
      rw [if_neg hstop, List.append_nil] at hcs0
      obtain ⟨cs1, t, ht, hgo⟩ := ih ((splitLines (buf ++ c)).getLastD []) ek
      refine ⟨cs0 ++ cs1, t, ht, ?_⟩
      rw [hcs0, hgo]
      simp [List.map_append]

/-- C4: for every provider configuration and backend behavior (validation
failure, fetch failure, HTTP error, or a body delivered in any chunks with
any read ending), `chatStream` emits zero or more chunk events followed by
exactly one terminal event — one `onDone` or one `onError`, never both — and
emits nothing after it. -/
theorem C4_stream_callback_discipline (p : Provider) (beh : StreamBehavior) :
    ∃ (cs : List Json) (t : Ev),
      (t = Ev.done ∨ ∃ m, t = Ev.error m) ∧
      chatStream p beh = cs.map Ev.chunk ++ [t] := by
  unfold chatStream
  match hv : validateProvider p with
  | some msg => exact ⟨[], Ev.error msg, Or.inr ⟨msg, rfl⟩, rfl⟩
  | none =>
    have hdisp : ∀ (sf : Provider → StreamBehavior → List Ev)
        (hand : List Char → HOut)
        (hhand : ∀ l, ∀ e ∈ (hand l).evs, ∃ j, e = Ev.chunk j)
        (hfe : ∀ m, sf p (.fetchErr m) = [Ev.error (enrichMsg p m)] ∨
          sf p (.fetchErr m) = [Ev.error m])
        (hhe : ∀ st b, ∃ m, sf p (.httpErr st b) = [Ev.error m])
        (hbody : ∀ ch ek, sf p (.body ch ek) = streamGo hand [] ch ek),
        ∃ (cs : List Json) (t : Ev),
          (t = Ev.done ∨ ∃ m, t = Ev.error m) ∧
          sf p beh = cs.map Ev.chunk ++ [t] := by
      intro sf hand hhand hfe hhe hbody
      match beh with
      | .fetchErr m =>
        rcases hfe m with h | h
        · exact ⟨[], Ev.error (enrichMsg p m), Or.inr ⟨_, rfl⟩, h⟩
        · exact ⟨[], Ev.error m, Or.inr ⟨m, rfl⟩, h⟩
      | .httpErr st b =>
        obtain ⟨m, hm⟩ := hhe st b
        exact ⟨[], Ev.error m, Or.inr ⟨m, rfl⟩, hm⟩
      | .body ch ek =>
        obtain ⟨cs, t, ht, hgo⟩ := streamGo_shape hand hhand ch [] ek
        exact ⟨cs, t, ht, by rw [hbody, hgo]⟩
    match streamPathFor p.name with
    | .gemini =>
      exact hdisp streamGemini handleGeminiLine handleGeminiLine_chunks
        (fun m => Or.inr rfl) (fun st b => ⟨_, rfl⟩) (fun ch ek => rfl)
    | .anthropic =>
      exact hdisp streamAnthropic handleAnthropicLine handleAnthropicLine_chunks
        (fun m => Or.inr rfl) (fun st b => ⟨_, rfl⟩) (fun ch ek => rfl)
    | .ollama =>
      exact hdisp streamOllama handleOllamaLine handleOllamaLine_chunks
        (fun m => Or.inl rfl) (fun st b => ⟨_, rfl⟩) (fun ch ek => rfl)
    | .openaiCompatible =>
      exact hdisp streamOpenAICompatible handleOpenAILine
        handleOpenAILine_chunks
        (fun m => Or.inl rfl) (fun st b => ⟨_, rfl⟩) (fun ch ek => rfl)

/-! ## Claim C5 — chunk-boundary invariance of the decoders -/

theorem getLastD_append_ne {α : Type} (a : List α) {b : List α} (hb : b ≠ [])
    (d : α) : (a ++ b).getLastD d = b.getLastD d := by
  rw [List.getLastD_eq_getLast?, List.getLastD_eq_getLast?,
    List.getLast?_append, List.getLast?_eq_getLast b hb]
  rfl

theorem getLastD_mem {α : Type} {l : List α} (h : l ≠ []) (d : α) :
    l.getLastD d ∈ l := by
  rw [List.getLastD_eq_getLast?, List.getLast?_eq_getLast l h]
  exact List.getLast_mem h

/-- `splitLines` on an append, in the form the decoder loop needs. -/
theorem splitLines_append (a b : List Char) :
    splitLines (a ++ b) = (splitLines a).dropLast ++
      (splitLines b).modifyHead (fun m => (splitLines a).getLastD [] ++ m) := by
  unfold splitLines List.splitOn
  exact splitOnP_append _ a b

/-- A newline-free text is a single line. -/
theorem splitLines_single {l : List Char} (h : '\n' ∉ l) :
    splitLines l = [l] := by
  unfold splitLines List.splitOn
  refine List.splitOnP_eq_single _ _ ?_
  intro x hx hb
  exact h (by rw [← eq_of_beq hb]; exact hx)

/-- The dangling buffer piece of a split is newline-free. -/
theorem splitLines_getLastD_no_newline (s : List Char) :
    '\n' ∉ (splitLines s).getLastD [] :=
  splitLines_no_newline s _ (getLastD_mem (splitLines_ne_nil s) [])

theorem runLines_append (h : List Char → HOut) (xs ys : List (List Char)) :
    runLines h (xs ++ ys)
      = if (runLines h xs).2 then runLines h xs
        else ((runLines h xs).1 ++ (runLines h ys).1, (runLines h ys).2) := by
  induction xs with
  | nil => simp [runLines]
  | cons l rest ih =>
    rw [List.cons_append, runLines, runLines]
    by_cases hstop : (h l).stop
    · rw [if_pos hstop, if_pos hstop]
      simp
    · rw [if_neg hstop, if_neg hstop]
      simp only [ih]
      by_cases hs2 : (runLines h rest).2
      · rw [if_pos hs2]
        simp [hs2]
      · rw [if_neg hs2]
        simp [hs2, List.append_assoc]

/-- Merging two adjacent reads does not change the decoded event stream. -/
theorem streamGo_merge (h : List Char → HOut) (buf c1 c2 : List Char)
    (rest : List (List Char)) (ek : EndKind) :
    streamGo h buf (c1 :: c2 :: rest) ek
      = streamGo h buf ((c1 ++ c2) :: rest) ek := by
  have hsplit : splitLines (buf ++ (c1 ++ c2))
      = (splitLines (buf ++ c1)).dropLast ++
          splitLines ((splitLines (buf ++ c1)).getLastD [] ++ c2) := by
    rw [← List.append_assoc, splitLines_append (buf ++ c1) c2]
    rw [splitLines_append ((splitLines (buf ++ c1)).getLastD []) c2]
    rw [splitLines_single (splitLines_getLastD_no_newline (buf ++ c1))]
    rfl
  conv_rhs => rw [streamGo]
  rw [streamGo, streamGo, hsplit]
  have hne2 : splitLines ((splitLines (buf ++ c1)).getLastD [] ++ c2) ≠ [] :=
    splitLines_ne_nil _
  rw [List.dropLast_append_of_ne_nil _ hne2,
    getLastD_append_ne _ hne2, runLines_append]
  by_cases hs1 : (runLines h ((splitLines (buf ++ c1)).dropLast)).2
  · rw [if_pos hs1, if_pos hs1, if_pos hs1]
  · rw [if_neg hs1, if_neg hs1]
    by_cases hs2 : (runLines h
        ((splitLines ((splitLines (buf ++ c1)).getLastD [] ++ c2)).dropLast)).2
    · simp only [List.getLastD_eq_getLast?] at hs2
      simp [hs2]
    · simp only [List.getLastD_eq_getLast?] at hs2
      simp [hs2, List.append_assoc]

theorem streamGo_unsplit_aux (h : List Char → HOut) :
    ∀ (n : Nat) (chunks : List (List Char)), chunks.length ≤ n →
      ∀ ek : EndKind,
        streamGo h [] chunks ek = streamGo h [] [chunks.flatten] ek := by
  intro n
  induction n with
  | zero =>
    intro chunks hlen ek
    match chunks with
    | [] => rfl
  | succ n ih =>
    intro chunks hlen ek
    match chunks with
    | [] => rfl
    | [c] => rw [show [c].flatten = c from by simp]
    | c1 :: c2 :: rest =>
      rw [streamGo_merge h [] c1 c2 rest ek]
      rw [ih ((c1 ++ c2) :: rest) (by simp at hlen ⊢; omega) ek]
      rw [show ((c1 ++ c2) :: rest).flatten
          = (c1 :: c2 :: rest).flatten from by simp]

/-- Feeding the whole body as one read gives the same events as any
splitting into reads. -/
theorem streamGo_unsplit (h : List Char → HOut) (chunks : List (List Char))
    (ek : EndKind) :
    streamGo h [] chunks ek = streamGo h [] [chunks.flatten] ek :=
  streamGo_unsplit_aux h chunks.length chunks (Nat.le_refl _) ek

theorem dropLit_append : ∀ p r : List Char, dropLit p (p ++ r) = some r := by
  intro p
  induction p with
  | nil => intro r; rfl
  | cons c p' ih => intro r; simp [dropLit, ih]

/-- C5: for every provider, every way of splitting a response body into read
chunks (including mid-line) and every read ending, each of the three dialect
decoders — SSE with the `[DONE]` sentinel, SSE with typed envelopes, and
newline-delimited bare JSON with a `done` field (and the Gemini SSE variant
as well) — emits exactly the event sequence of the unsplit body: incomplete
trailing lines are carried in the buffer across reads.  Moreover a `data:`
line whose payload fails to parse as JSON is skipped without aborting the
stream. -/
theorem C5_stream_chunking (p : Provider) (chunks : List (List Char))
    (ek : EndKind) :
    (streamOpenAICompatible p (.body chunks ek)
       = streamOpenAICompatible p (.body [chunks.flatten] ek)) ∧
    (streamAnthropic p (.body chunks ek)
       = streamAnthropic p (.body [chunks.flatten] ek)) ∧
    (streamOllama p (.body chunks ek)
       = streamOllama p (.body [chunks.flatten] ek)) ∧
    (streamGemini p (.body chunks ek)
       = streamGemini p (.body [chunks.flatten] ek)) ∧
    (∀ d : List Char, jsonParse d = none → ¬ d = "[DONE]".toList →
      trimChars ("data: ".toList ++ d) = "data: ".toList ++ d →
      handleOpenAILine ("data: ".toList ++ d) = ⟨[], false⟩) := by
  refine ⟨streamGo_unsplit _ chunks ek, streamGo_unsplit _ chunks ek,
    streamGo_unsplit _ chunks ek, streamGo_unsplit _ chunks ek, ?_⟩
  intro d hj hs ht
  simp only [handleOpenAILine]
  rw [ht, if_neg (by simp), dropLit_append]
  have hs' : ¬ d = ['[', 'D', 'O', 'N', 'E', ']'] :=
    fun he => hs (by rw [he]; rfl)
  simp [hs', hj]

/-- Witness for C5's skip conjunct at a malformed keep-alive payload. -/
theorem C5_witness :
    handleOpenAILine ("data: ".toList ++ "notjson".toList) = ⟨[], false⟩ := by
  have h := (C5_stream_chunking ⟨"openai", "k", "u", "m"⟩ []
    EndKind.readDone).2.2.2.2
  exact h "notjson".toList rfl (by decide) (by decide)

end ThatBrowser
